import Mathlib

/-!
Verification of the `dendro` clustering core: the amino-acid alphabet and
BLOSUM scoring (`genome-kit`), the Needleman–Wunsch aligner (`needleman`),
and the Kruskal-style agglomerative clusterer with union–find (`kruskal`).
Rust sources are shallowly embedded: vectors become lists, in-place mutation
becomes explicit state passing, machine integers become `Int`.
-/

namespace Dendro

/-! ## Alphabet (src/genome-kit/src/amino.rs) -/

/-- The 24-variant amino-acid enumeration from `amino.rs`. -/
inductive AminoAcid where
  | Alanine       -- A
  | Arginine      -- R
  | Asparagine    -- N
  | AsparticAcid  -- D
  | Cysteine      -- C
  | Glutamine     -- Q
  | GlutamicAcid  -- E
  | Glycine       -- G
  | Histidine     -- H
  | Isoleucine    -- I
  | Leucine       -- L
  | Lysine        -- K
  | Methionine    -- M
  | Phenylalanine -- F
  | Proline       -- P
  | Serine        -- S
  | Threonine     -- T
  | Tryptophan    -- W
  | Tyrosine      -- Y
  | Valine        -- V
  | Asx           -- B
  | Glx           -- Z
  | Unknown       -- X
  | Stop          -- *
deriving DecidableEq, Repr, Inhabited, Fintype

/-- `From<char> for AminoAcid` in `amino.rs`: total, case-sensitive,
unrecognized characters map to `Unknown`. -/
def aminoFromChar (c : Char) : AminoAcid :=
  match c with
  | 'A' => .Alanine
  | 'R' => .Arginine
  | 'N' => .Asparagine
  | 'D' => .AsparticAcid
  | 'C' => .Cysteine
  | 'Q' => .Glutamine
  | 'E' => .GlutamicAcid
  | 'G' => .Glycine
  | 'H' => .Histidine
  | 'I' => .Isoleucine
  | 'L' => .Leucine
  | 'K' => .Lysine
  | 'M' => .Methionine
  | 'F' => .Phenylalanine
  | 'P' => .Proline
  | 'S' => .Serine
  | 'T' => .Threonine
  | 'W' => .Tryptophan
  | 'Y' => .Tyrosine
  | 'V' => .Valine
  | 'B' => .Asx
  | 'Z' => .Glx
  | 'X' => .Unknown
  | '*' => .Stop
  | _   => .Unknown

/-- A genome is a list of amino acids (`genome.rs`, `Genome(Vec<AminoAcid>)`). -/
abbrev Genome := List AminoAcid

/-! ## Substitution tables (src/genome-kit/src/blosum/mod.rs) -/

/-- `acid_to_index` from `blosum/mod.rs`: row/column index of an acid. -/
def acid_to_index (acid : AminoAcid) : Nat :=
  match acid with
  | .Alanine => 0
  | .Arginine => 1
  | .Asparagine => 2
  | .AsparticAcid => 3
  | .Cysteine => 4
  | .Glutamine => 5
  | .GlutamicAcid => 6
  | .Glycine => 7
  | .Histidine => 8
  | .Isoleucine => 9
  | .Leucine => 10
  | .Lysine => 11
  | .Methionine => 12
  | .Phenylalanine => 13
  | .Proline => 14
  | .Serine => 15
  | .Threonine => 16
  | .Tryptophan => 17
  | .Tyrosine => 18
  | .Valine => 19
  | .Asx => 20
  | .Glx => 21
  | .Unknown => 22
  | .Stop => 23

/-- `COLS` from `blosum/mod.rs`. -/
def COLS : Nat := 24

/-- `score_for` from `blosum/mod.rs`: flat row-major lookup into a 24×24 matrix. -/
def score_for (matrix : List Int) (a b : AminoAcid) : Int :=
  matrix.getD (acid_to_index a * COLS + acid_to_index b) 0

/-- Modelled from the spec: the BLOSUM62 matrix constant.  The file
`src/genome-kit/src/blosum/blosum62.rs` is not present under `src/`; §4.A of
the spec requires the published NCBI BLOSUM62 values bit-exact, in the order
A R N D C Q E G H I L K M F P S T W Y V B Z X *, and requires the matrix to be
symmetric.  These are the published NCBI values, given row by row and
concatenated row-major below; this row is the one for A. -/
def blosumRowA : List Int :=
  [4, -1, -2, -2, 0, -1, -1, 0, -2, -1, -1, -1, -1, -2, -1, 1, 0, -3, -2, 0, -2, -1, 0, -4]

/-- BLOSUM62 row for R. -/
def blosumRowR : List Int :=
  [-1, 5, 0, -2, -3, 1, 0, -2, 0, -3, -2, 2, -1, -3, -2, -1, -1, -3, -2, -3, -1, 0, -1, -4]

/-- BLOSUM62 row for N. -/
def blosumRowN : List Int :=
  [-2, 0, 6, 1, -3, 0, 0, 0, 1, -3, -3, 0, -2, -3, -2, 1, 0, -4, -2, -3, 3, 0, -1, -4]

/-- BLOSUM62 row for D. -/
def blosumRowD : List Int :=
  [-2, -2, 1, 6, -3, 0, 2, -1, -1, -3, -4, -1, -3, -3, -1, 0, -1, -4, -3, -3, 4, 1, -1, -4]

/-- BLOSUM62 row for C. -/
def blosumRowC : List Int :=
  [0, -3, -3, -3, 9, -3, -4, -3, -3, -1, -1, -3, -1, -2, -3, -1, -1, -2, -2, -1, -3, -3, -2, -4]

/-- BLOSUM62 row for Q. -/
def blosumRowQ : List Int :=
  [-1, 1, 0, 0, -3, 5, 2, -2, 0, -3, -2, 1, 0, -3, -1, 0, -1, -2, -1, -2, 0, 3, -1, -4]

/-- BLOSUM62 row for E. -/
def blosumRowE : List Int :=
  [-1, 0, 0, 2, -4, 2, 5, -2, 0, -3, -3, 1, -2, -3, -1, 0, -1, -3, -2, -2, 1, 4, -1, -4]

/-- BLOSUM62 row for G. -/
def blosumRowG : List Int :=
  [0, -2, 0, -1, -3, -2, -2, 6, -2, -4, -4, -2, -3, -3, -2, 0, -2, -2, -3, -3, -1, -2, -1, -4]

/-- BLOSUM62 row for H. -/
def blosumRowH : List Int :=
  [-2, 0, 1, -1, -3, 0, 0, -2, 8, -3, -3, -1, -2, -1, -2, -1, -2, -2, 2, -3, 0, 0, -1, -4]

/-- BLOSUM62 row for I. -/
def blosumRowI : List Int :=
  [-1, -3, -3, -3, -1, -3, -3, -4, -3, 4, 2, -3, 1, 0, -3, -2, -1, -3, -1, 3, -3, -3, -1, -4]

/-- BLOSUM62 row for L. -/
def blosumRowL : List Int :=
  [-1, -2, -3, -4, -1, -2, -3, -4, -3, 2, 4, -2, 2, 0, -3, -2, -1, -2, -1, 1, -4, -3, -1, -4]

/-- BLOSUM62 row for K. -/
def blosumRowK : List Int :=
  [-1, 2, 0, -1, -3, 1, 1, -2, -1, -3, -2, 5, -1, -3, -1, 0, -1, -3, -2, -2, 0, 1, -1, -4]

/-- BLOSUM62 row for M. -/
def blosumRowM : List Int :=
  [-1, -1, -2, -3, -1, 0, -2, -3, -2, 1, 2, -1, 5, 0, -2, -1, -1, -1, -1, 1, -3, -1, -1, -4]

/-- BLOSUM62 row for F. -/
def blosumRowF : List Int :=
  [-2, -3, -3, -3, -2, -3, -3, -3, -1, 0, 0, -3, 0, 6, -4, -2, -2, 1, 3, -1, -3, -3, -1, -4]

/-- BLOSUM62 row for P. -/
def blosumRowP : List Int :=
  [-1, -2, -2, -1, -3, -1, -1, -2, -2, -3, -3, -1, -2, -4, 7, -1, -1, -4, -3, -2, -2, -1, -2, -4]

/-- BLOSUM62 row for S. -/
def blosumRowS : List Int :=
  [1, -1, 1, 0, -1, 0, 0, 0, -1, -2, -2, 0, -1, -2, -1, 4, 1, -3, -2, -2, 0, 0, 0, -4]

/-- BLOSUM62 row for T. -/
def blosumRowT : List Int :=
  [0, -1, 0, -1, -1, -1, -1, -2, -2, -1, -1, -1, -1, -2, -1, 1, 5, -2, -2, 0, -1, -1, 0, -4]

/-- BLOSUM62 row for W. -/
def blosumRowW : List Int :=
  [-3, -3, -4, -4, -2, -2, -3, -2, -2, -3, -2, -3, -1, 1, -4, -3, -2, 11, 2, -3, -4, -3, -2, -4]

/-- BLOSUM62 row for Y. -/
def blosumRowY : List Int :=
  [-2, -2, -2, -3, -2, -1, -2, -3, 2, -1, -1, -2, -1, 3, -3, -2, -2, 2, 7, -1, -3, -2, -1, -4]

/-- BLOSUM62 row for V. -/
def blosumRowV : List Int :=
  [0, -3, -3, -3, -1, -2, -2, -3, -3, 3, 1, -2, 1, -1, -2, -2, 0, -3, -1, 4, -3, -2, -1, -4]

/-- BLOSUM62 row for B. -/
def blosumRowB : List Int :=
  [-2, -1, 3, 4, -3, 0, 1, -1, 0, -3, -4, 0, -3, -3, -2, 0, -1, -4, -3, -3, 4, 1, -1, -4]

/-- BLOSUM62 row for Z. -/
def blosumRowZ : List Int :=
  [-1, 0, 0, 1, -3, 3, 4, -2, 0, -3, -3, 1, -1, -3, -1, 0, -1, -3, -2, -2, 1, 4, -1, -4]

/-- BLOSUM62 row for X. -/
def blosumRowX : List Int :=
  [0, -1, -1, -1, -2, -1, -1, -1, -1, -1, -1, -1, -1, -1, -2, 0, 0, -2, -1, -1, -1, -1, -1, -4]

/-- BLOSUM62 row for the stop marker. -/
def blosumRowStop : List Int :=
  [-4, -4, -4, -4, -4, -4, -4, -4, -4, -4, -4, -4, -4, -4, -4, -4, -4, -4, -4, -4, -4, -4, -4, 1]

/-- The full flat (row-major) BLOSUM62 matrix. -/
def BLOSUM62_MATRIX : List Int :=
  blosumRowA ++ blosumRowR ++ blosumRowN ++ blosumRowD ++ blosumRowC ++ blosumRowQ ++
  blosumRowE ++ blosumRowG ++ blosumRowH ++ blosumRowI ++ blosumRowL ++ blosumRowK ++
  blosumRowM ++ blosumRowF ++ blosumRowP ++ blosumRowS ++ blosumRowT ++ blosumRowW ++
  blosumRowY ++ blosumRowV ++ blosumRowB ++ blosumRowZ ++ blosumRowX ++ blosumRowStop

/-- `Blosum62` scoring: `score_for` applied to the BLOSUM62 constant. -/
def blosum62Score (a b : AminoAcid) : Int :=
  score_for BLOSUM62_MATRIX a b

/-! ## Needleman–Wunsch (src/needleman/src/lib.rs) -/

/-- The `idx` helper closure of `align_dp_table`: row-major index into the
flat `(m+1)×(n+1)` DP buffer of real width `n+1`. -/
def dpIdx (n i j : Nat) : Nat := i * (n + 1) + j

/-- The DP buffer of `align_dp_table` after its two initialisation loops: a
flat `vec![0; (m+1)*(n+1)]` whose first column is filled with `i * g` and
whose first row is filled with `j * g` (`needleman/src/lib.rs` lines 20-33). -/
def dpInit (seq_a seq_b : List AminoAcid) (gap_penalty : Int) : List Int :=
  (List.range (seq_b.length + 1)).foldl
    (fun dp j => dp.set (dpIdx seq_b.length 0 j) ((j : Int) * gap_penalty))
    ((List.range (seq_a.length + 1)).foldl
      (fun dp i => dp.set (dpIdx seq_b.length i 0) ((i : Int) * gap_penalty))
      (List.replicate ((seq_a.length + 1) * (seq_b.length + 1)) 0))

/-- The body of the nested interior loop of `align_dp_table`
(`needleman/src/lib.rs` lines 37-47): with `i = i' + 1` and `j = j' + 1`, the
cell `(i, j)` becomes `diag.max(up).max(left)`. -/
def dpCell (seq_a seq_b : List AminoAcid) (gap_penalty : Int)
    (table : AminoAcid → AminoAcid → Int) (dp : List Int) (i' j' : Nat) : List Int :=
  let i := i' + 1
  let j := j' + 1
  let score := table (seq_a.getD (i - 1) default) (seq_b.getD (j - 1) default)
  let diag := dp.getD (dpIdx seq_b.length (i - 1) (j - 1)) 0 + score
  let up := dp.getD (dpIdx seq_b.length (i - 1) j) 0 + gap_penalty
  let left := dp.getD (dpIdx seq_b.length i (j - 1)) 0 + gap_penalty
  dp.set (dpIdx seq_b.length i j) (max (max diag up) left)

/-- `align_dp_table` from `needleman/src/lib.rs`: the bottom-up DP over a flat
`(m+1)*(n+1)` buffer (modelled as a `List Int`); after initialisation the
interior is filled row by row, and the bottom-right cell is returned. -/
def align_dp_table (seq_a seq_b : List AminoAcid) (gap_penalty : Int)
    (table : AminoAcid → AminoAcid → Int) : Int :=
  let dp3 := (List.range seq_a.length).foldl (fun dp i' =>
      (List.range seq_b.length).foldl
        (fun dp j' => dpCell seq_a seq_b gap_penalty table dp i' j') dp)
    (dpInit seq_a seq_b gap_penalty)
  dp3.getD (dpIdx seq_b.length seq_a.length seq_b.length) 0

/-- `needleman_wunsch` from `needleman/src/lib.rs` (blanket `impl` over any
table): `align_dp_table` with the gap penalty fixed at `-5`. -/
def needleman_wunsch (table : AminoAcid → AminoAcid → Int)
    (seq_a seq_b : List AminoAcid) : Int :=
  align_dp_table seq_a seq_b (-5) table

/-- The reference recurrence of spec §4.B: `H[0][0] = 0`, `H[i][0] = i·g`,
`H[0][j] = j·g`, and interior cells take the three-way max of diagonal plus
substitution score, up plus gap, left plus gap. -/
def specH (seq_a seq_b : List AminoAcid) (g : Int)
    (table : AminoAcid → AminoAcid → Int) : Nat → Nat → Int
  | 0, 0 => 0
  | i + 1, 0 => ((i : Int) + 1) * g
  | 0, j + 1 => ((j : Int) + 1) * g
  | i + 1, j + 1 =>
      max (max (specH seq_a seq_b g table i j + table (seq_a.getD i default) (seq_b.getD j default))
               (specH seq_a seq_b g table i (j + 1) + g))
          (specH seq_a seq_b g table (i + 1) j + g)

/-! ### Buffer access lemmas -/

theorem getD_set_self (l : List Int) (k : Nat) (v : Int) (h : k < l.length) :
    (l.set k v).getD k 0 = v := by
  simp [List.getD_eq_getElem?_getD, List.getElem?_set_self h]

theorem getD_set_ne (l : List Int) (k k2 : Nat) (v : Int) (h : k ≠ k2) :
    (l.set k v).getD k2 0 = l.getD k2 0 := by
  simp [List.getD_eq_getElem?_getD, List.getElem?_set_ne h]

theorem dpIdx_div (n a b : Nat) (hb : b ≤ n) : dpIdx n a b / (n + 1) = a := by
  unfold dpIdx
  rw [Nat.mul_comm, Nat.mul_add_div (Nat.succ_pos n), Nat.div_eq_of_lt (by omega)]
  omega

theorem dpIdx_inj {n i i2 j j2 : Nat} (hj : j ≤ n) (hj2 : j2 ≤ n)
    (h : dpIdx n i j = dpIdx n i2 j2) : i = i2 ∧ j = j2 := by
  have hi : i = i2 := by
    have h1 := dpIdx_div n i j hj
    have h2 := dpIdx_div n i2 j2 hj2
    rw [h] at h1
    omega
  refine ⟨hi, ?_⟩
  subst hi
  unfold dpIdx at h
  omega

theorem dpIdx_lt {n m i j : Nat} (hi : i ≤ m) (hj : j ≤ n) :
    dpIdx n i j < (m + 1) * (n + 1) := by
  unfold dpIdx
  have h1 : i * (n + 1) ≤ m * (n + 1) := Nat.mul_le_mul_right _ hi
  have h2 : (m + 1) * (n + 1) = m * (n + 1) + (n + 1) := Nat.succ_mul m (n + 1)
  omega

/-! ### Write-fold lemmas -/

theorem foldl_set_length (l : List Nat) (f : Nat → Nat) (v : Nat → Int) (dp : List Int) :
    (l.foldl (fun d i => d.set (f i) (v i)) dp).length = dp.length := by
  induction l generalizing dp with
  | nil => rfl
  | cons a t ih => rw [List.foldl_cons, ih, List.length_set]

theorem foldl_set_getD_of_notin (l : List Nat) (f : Nat → Nat) (v : Nat → Int)
    (dp : List Int) (k : Nat) (hk : ∀ i ∈ l, f i ≠ k) :
    (l.foldl (fun d i => d.set (f i) (v i)) dp).getD k 0 = dp.getD k 0 := by
  induction l generalizing dp with
  | nil => rfl
  | cons a t ih =>
    rw [List.foldl_cons, ih _ (fun i hi => hk i (List.mem_cons_of_mem a hi)),
        getD_set_ne _ _ _ _ (hk a (List.mem_cons_self a t))]

theorem foldl_set_getD_of_mem (l : List Nat) (f : Nat → Nat) (v : Nat → Int)
    (dp : List Int) (i : Nat) (hmem : i ∈ l) (hlen : f i < dp.length)
    (huniq : ∀ x ∈ l, f x = f i → x = i) (hnodup : l.Nodup) :
    (l.foldl (fun d x => d.set (f x) (v x)) dp).getD (f i) 0 = v i := by
  induction l generalizing dp with
  | nil => cases hmem
  | cons a t ih =>
    rw [List.foldl_cons]
    rcases List.mem_cons.mp hmem with rfl | hit
    · have hno : ∀ x ∈ t, f x ≠ f i := by
        intro x hx hfx
        have hxi := huniq x (List.mem_cons_of_mem _ hx) hfx
        subst hxi
        exact (List.nodup_cons.mp hnodup).1 hx
      rw [foldl_set_getD_of_notin _ _ _ _ _ hno, getD_set_self _ _ _ hlen]
    · exact ih _ hit (by rw [List.length_set]; exact hlen)
        (fun x hx hfx => huniq x (List.mem_cons_of_mem _ hx) hfx)
        (List.nodup_cons.mp hnodup).2

/-! ### The initialised buffer agrees with the recurrence boundary -/

theorem dpInit_length (a b : List AminoAcid) (g : Int) :
    (dpInit a b g).length = (a.length + 1) * (b.length + 1) := by
  unfold dpInit
  rw [foldl_set_length, foldl_set_length, List.length_replicate]

theorem dpInit_row0 (a b : List AminoAcid) (g : Int) (j : Nat) (hj : j ≤ b.length) :
    (dpInit a b g).getD (dpIdx b.length 0 j) 0 = (j : Int) * g := by
  unfold dpInit
  exact foldl_set_getD_of_mem _ _ _ _ j
    (List.mem_range.mpr (by omega))
    (by rw [foldl_set_length, List.length_replicate]; exact dpIdx_lt (Nat.zero_le _) hj)
    (fun x hx hfx => (dpIdx_inj (by
        have := List.mem_range.mp hx; omega) hj hfx).2)
    (List.nodup_range _)

theorem dpInit_col0 (a b : List AminoAcid) (g : Int) (i : Nat) (hi : i ≤ a.length) :
    (dpInit a b g).getD (dpIdx b.length i 0) 0 = (i : Int) * g := by
  rcases Nat.eq_zero_or_pos i with rfl | hpos
  · exact dpInit_row0 a b g 0 (Nat.zero_le _)
  · unfold dpInit
    rw [foldl_set_getD_of_notin]
    · exact foldl_set_getD_of_mem _ _ _ _ i
        (List.mem_range.mpr (by omega))
        (by rw [List.length_replicate]; exact dpIdx_lt hi (Nat.zero_le _))
        (fun x hx hfx => (dpIdx_inj (Nat.zero_le _) (Nat.zero_le _) hfx).1)
        (List.nodup_range _)
    · intro x hx hfx
      have hxb : x ≤ b.length := by have := List.mem_range.mp hx; omega
      have := dpIdx_inj hxb (Nat.zero_le _) hfx
      omega

/-! ### Boundary values of the spec recurrence -/

theorem specH_row0 (a b : List AminoAcid) (g : Int) (t : AminoAcid → AminoAcid → Int)
    (j : Nat) : specH a b g t 0 j = (j : Int) * g := by
  cases j with
  | zero => simp [specH]
  | succ j => simp only [specH]; push_cast; ring

theorem specH_col0 (a b : List AminoAcid) (g : Int) (t : AminoAcid → AminoAcid → Int)
    (i : Nat) : specH a b g t i 0 = (i : Int) * g := by
  cases i with
  | zero => simp [specH]
  | succ i => simp only [specH]; push_cast; ring

/-! ### The interior loop computes the recurrence -/

theorem dpCell_spec (a b : List AminoAcid) (g : Int) (t : AminoAcid → AminoAcid → Int)
    (i' j' : Nat) (dp : List Int) (hi : i' < a.length) (hj : j' < b.length)
    (hlen : dp.length = (a.length + 1) * (b.length + 1))
    (h1 : dp.getD (dpIdx b.length i' j') 0 = specH a b g t i' j')
    (h2 : dp.getD (dpIdx b.length i' (j' + 1)) 0 = specH a b g t i' (j' + 1))
    (h3 : dp.getD (dpIdx b.length (i' + 1) j') 0 = specH a b g t (i' + 1) j') :
    (dpCell a b g t dp i' j').getD (dpIdx b.length (i' + 1) (j' + 1)) 0
        = specH a b g t (i' + 1) (j' + 1) ∧
    (∀ k, k ≠ dpIdx b.length (i' + 1) (j' + 1) →
        (dpCell a b g t dp i' j').getD k 0 = dp.getD k 0) ∧
    (dpCell a b g t dp i' j').length = dp.length := by
  refine ⟨?_, ?_, ?_⟩
  · simp only [dpCell, Nat.add_sub_cancel]
    rw [getD_set_self _ _ _ (by rw [hlen]; exact dpIdx_lt (by omega) (by omega))]
    rw [h1, h2, h3]
    simp only [specH]
  · intro k hk
    simp only [dpCell, Nat.add_sub_cancel]
    exact getD_set_ne _ _ _ _ (Ne.symm hk)
  · simp only [dpCell, Nat.add_sub_cancel, List.length_set]

theorem inner_fold_spec (a b : List AminoAcid) (g : Int) (t : AminoAcid → AminoAcid → Int)
    (i' : Nat) (hi : i' < a.length) :
    ∀ (len s : Nat) (dp : List Int), s + len ≤ b.length →
      dp.length = (a.length + 1) * (b.length + 1) →
      (∀ j, j ≤ b.length → dp.getD (dpIdx b.length i' j) 0 = specH a b g t i' j) →
      (∀ j, j ≤ s → dp.getD (dpIdx b.length (i' + 1) j) 0 = specH a b g t (i' + 1) j) →
      (((List.range' s len).foldl (fun dp j' => dpCell a b g t dp i' j') dp).length
          = dp.length ∧
       (∀ r j, j ≤ b.length → r ≠ i' + 1 →
          ((List.range' s len).foldl (fun dp j' => dpCell a b g t dp i' j') dp).getD
              (dpIdx b.length r j) 0 = dp.getD (dpIdx b.length r j) 0) ∧
       (∀ j, j ≤ s + len →
          ((List.range' s len).foldl (fun dp j' => dpCell a b g t dp i' j') dp).getD
              (dpIdx b.length (i' + 1) j) 0 = specH a b g t (i' + 1) j)) := by
  intro len
  induction len with
  | zero =>
    intro s dp hs hlen hprev hdone
    refine ⟨rfl, fun r j hj hr => rfl, fun j hj => hdone j (by omega)⟩
  | succ len ih =>
    intro s dp hs hlen hprev hdone
    have hsn : s < b.length := by omega
    obtain ⟨hcell, hpres, hclen⟩ := dpCell_spec a b g t i' s dp hi hsn hlen
      (hprev s (by omega)) (hprev (s + 1) (by omega)) (hdone s le_rfl)
    rw [List.range'_succ, List.foldl_cons]
    obtain ⟨ihlen, ihpres, ihdone⟩ := ih (s + 1) (dpCell a b g t dp i' s) (by omega)
      (by rw [hclen]; exact hlen)
      (by
        intro j hj
        rw [hpres _ (fun hcontra => by
          have := dpIdx_inj hj (by omega) hcontra
          omega)]
        exact hprev j hj)
      (by
        intro j hj
        rcases Nat.lt_or_ge j (s + 1) with hlt | hge
        · rw [hpres _ (fun hcontra => by
            have := dpIdx_inj (by omega) (by omega) hcontra
            omega)]
          exact hdone j (by omega)
        · have hj1 : j = s + 1 := by omega
          subst hj1
          exact hcell)
    refine ⟨by rw [ihlen, hclen], ?_, ?_⟩
    · intro r j hj hr
      rw [ihpres r j hj hr]
      exact hpres _ (fun hcontra => by
        have := dpIdx_inj hj (by omega) hcontra
        omega)
    · intro j hj
      exact ihdone j (by omega)

theorem outer_fold_spec (a b : List AminoAcid) (g : Int) (t : AminoAcid → AminoAcid → Int) :
    ∀ (len s : Nat) (dp : List Int), s + len ≤ a.length →
      dp.length = (a.length + 1) * (b.length + 1) →
      (∀ i, i ≤ a.length → dp.getD (dpIdx b.length i 0) 0 = specH a b g t i 0) →
      (∀ r j, r ≤ s → j ≤ b.length → dp.getD (dpIdx b.length r j) 0 = specH a b g t r j) →
      (∀ r j, r ≤ s + len → j ≤ b.length →
        ((List.range' s len).foldl
            (fun dp i' => (List.range b.length).foldl
              (fun dp j' => dpCell a b g t dp i' j') dp) dp).getD
          (dpIdx b.length r j) 0 = specH a b g t r j) := by
  intro len
  induction len with
  | zero =>
    intro s dp hs hlen hcol hdone r j hr hj
    exact hdone r j (by omega) hj
  | succ len ih =>
    intro s dp hs hlen hcol hdone
    have hsm : s < a.length := by omega
    rw [List.range'_succ, List.foldl_cons]
    obtain ⟨ilen, ipres, idone⟩ := by
      have := inner_fold_spec a b g t s hsm b.length 0 dp (by omega) hlen
        (fun j hj => hdone s j le_rfl hj)
        (fun j hj => by
          have hj0 : j = 0 := by omega
          subst hj0
          exact hcol (s + 1) (by omega))
      rw [← List.range_eq_range'] at this
      exact this
    intro r j hr hj
    exact ih (s + 1) _ (by omega) (by rw [ilen]; exact hlen)
      (by
        intro i hi
        rcases eq_or_ne i (s + 1) with rfl | hne
        · exact idone 0 (by omega)
        · rw [ipres i 0 (Nat.zero_le _) hne]
          exact hcol i hi)
      (by
        intro r2 j2 hr2 hj2
        rcases eq_or_ne r2 (s + 1) with rfl | hne
        · exact idone j2 (by omega)
        · rw [ipres r2 j2 hj2 hne]
          exact hdone r2 j2 (by omega) hj2)
      r j (by omega) hj

/-- `align_dp_table` returns exactly `H[m][n]` of the reference recurrence. -/
theorem align_dp_table_eq_specH (a b : List AminoAcid) (g : Int)
    (t : AminoAcid → AminoAcid → Int) :
    align_dp_table a b g t = specH a b g t a.length b.length := by
  have h := outer_fold_spec a b g t a.length 0 (dpInit a b g) (by omega)
    (dpInit_length a b g)
    (fun i hi => by rw [dpInit_col0 a b g i hi, specH_col0])
    (fun r j hr hj => by
      have hr0 : r = 0 := by omega
      subst hr0
      rw [dpInit_row0 a b g j hj, specH_row0])
  have hfin := h a.length b.length (by omega) le_rfl
  rw [← List.range_eq_range'] at hfin
  simpa only [align_dp_table] using hfin

/-! ### Boundary and symmetry consequences -/

theorem needleman_wunsch_eq_specH (t : AminoAcid → AminoAcid → Int)
    (a b : List AminoAcid) :
    needleman_wunsch t a b = specH a b (-5) t a.length b.length :=
  align_dp_table_eq_specH a b (-5) t

theorem specH_symm (a b : List AminoAcid) (g : Int) (t : AminoAcid → AminoAcid → Int)
    (hsym : ∀ x y, t x y = t y x) :
    ∀ i j, specH a b g t i j = specH b a g t j i := by
  intro i
  induction i with
  | zero =>
    intro j
    cases j <;> simp [specH]
  | succ i ih =>
    intro j
    induction j with
    | zero => simp [specH]
    | succ j ihj =>
      simp only [specH]
      rw [ih j, ih (j + 1), ihj, hsym]
      rw [max_assoc,
          max_comm (specH b a g t (j + 1) i + g) (specH b a g t j (i + 1) + g),
          ← max_assoc]

theorem align_symm (a b : List AminoAcid) (g : Int) (t : AminoAcid → AminoAcid → Int)
    (hsym : ∀ x y, t x y = t y x) :
    align_dp_table a b g t = align_dp_table b a g t := by
  rw [align_dp_table_eq_specH, align_dp_table_eq_specH]
  exact specH_symm a b g t hsym a.length b.length

set_option maxHeartbeats 4000000 in
set_option maxRecDepth 10000 in
/-- The modelled BLOSUM62 matrix is symmetric, as §4.A requires. -/
theorem blosum62Score_symm : ∀ x y : AminoAcid, blosum62Score x y = blosum62Score y x := by
  decide

/-! ## Cluster trees, union-find and the Kruskal driver (src/kruskal/src/lib.rs) -/

/-- `Cluster<T>`: a similarity-score based binary tree, `Leaf(T)` or
`Node { left, right, similarity }`. -/
inductive Cluster (T : Type) where
  | leaf : T → Cluster T
  | node : Cluster T → Cluster T → Int → Cluster T
deriving Repr, DecidableEq

instance {T : Type} [Inhabited T] : Inhabited (Cluster T) := ⟨.leaf default⟩

/-- `Edge`: two species indices and a similarity score.  Its `Ord` instance
compares by `similarity` only. -/
structure Edge where
  species_a : Nat
  species_b : Nat
  similarity : Int
deriving Repr, DecidableEq

/-- `UnionFind::find` with path compression, state-passing.  `fuel` bounds the
recursion (the Rust recursion terminates because well-formed parent chains are
acyclic; the wrapper passes `parent.length`, which suffices for every state
arising in the program). -/
def findAux : Nat → List Int → Nat → Nat × List Int
  | 0, p, x => (x, p)
  | fuel + 1, p, x =>
    let v := p.getD x 0
    if v < 0 then (x, p)
    else
      let r := findAux fuel p v.toNat
      (r.1, r.2.set x (r.1 : Int))

/-- `UnionFind::find` on the parent vector. -/
def ufFind (p : List Int) (x : Nat) : Nat × List Int :=
  findAux p.length p x

/-- `UnionFind::union`: find both roots; if equal return `false`; otherwise
attach the root with the less negative parent entry under the other (union by
size via the negative-size encoding) and return `true`. -/
def ufUnion (p : List Int) (a b : Nat) : Bool × List Int :=
  let fa := ufFind p a
  let fb := ufFind fa.2 b
  let ra := fa.1
  let rb := fb.1
  let p2 := fb.2
  if ra = rb then (false, p2)
  else
    let pa := p2.getD ra 0
    let pb := p2.getD rb 0
    let bigsmall := if pa ≤ pb then (ra, rb) else (rb, ra)
    let bi := bigsmall.1
    let si := bigsmall.2
    let p3 := p2.set bi (p2.getD bi 0 + p2.getD si 0)
    let p4 := p3.set si (bi : Int)
    (true, p4)

/-- `UnionFind::new(n)`: `n` singleton sets, each its own root of size 1. -/
def ufNew (n : Nat) : List Int := List.replicate n (-1)

/-- `Species`: a name and a genome. -/
structure Species where
  name : String
  genome : Genome
deriving Repr, DecidableEq

/-- `ClusterManager<T>`: threaded union-find state, the growing cluster
vector, and the per-species current cluster id map. -/
structure ClusterManager (T : Type) where
  uf : List Int
  clusters : List (Cluster T)
  cluster_map : List Nat
deriving Repr

/-- `ClusterManager::new`: the initial clusters, a union-find of capacity
`2 * n`, and the identity cluster map. -/
def ClusterManager.new {T : Type} (initial_clusters : List (Cluster T)) : ClusterManager T :=
  { clusters := initial_clusters
    uf := ufNew (2 * initial_clusters.length)
    cluster_map := List.range initial_clusters.length }

/-- `ClusterManager::get`: `uf.find(cluster_map[species])`. -/
def ClusterManager.get {T : Type} (m : ClusterManager T) (species : Nat) :
    Nat × ClusterManager T :=
  let r := ufFind m.uf (m.cluster_map.getD species 0)
  (r.1, { m with uf := r.2 })

/-- `ClusterManager::add_cluster`: push and return the new index. -/
def ClusterManager.add_cluster {T : Type} (m : ClusterManager T) (new_cluster : Cluster T) :
    Nat × ClusterManager T :=
  let clusters2 := m.clusters ++ [new_cluster]
  (clusters2.length - 1, { m with clusters := clusters2 })

/-- `ClusterManager::merge`: `uf.union(a, b)`, then remap every `cluster_map`
entry whose current root is `a` or `b` to `new_id` (the union-find state is
threaded through the `find` calls of the loop). -/
def ClusterManager.merge {T : Type} (m : ClusterManager T) (a b new_id : Nat) :
    ClusterManager T :=
  let u := ufUnion m.uf a b
  let res := m.cluster_map.foldl
    (fun (acc : List Int × List Nat) entry =>
      let f := ufFind acc.1 entry
      if f.1 = a ∨ f.1 = b then (f.2, acc.2 ++ [new_id]) else (f.2, acc.2 ++ [entry]))
    (u.2, [])
  { m with uf := res.1, cluster_map := res.2 }

/-- `ClusterManager::root`: the cluster of the first map entry, if any. -/
def ClusterManager.root {T : Type} [Inhabited T] (m : ClusterManager T) : Option (Cluster T) :=
  m.cluster_map.head?.map (fun cid => m.clusters.getD cid default)

/-- `create_initial_clusters`: one leaf per name. -/
def create_initial_clusters {T : Type} (names : List T) : List (Cluster T) :=
  names.map Cluster.leaf

/-- `compute_edges`: for every pair `i < j` the Needleman–Wunsch BLOSUM62
similarity of the two genomes (the rayon parallel iterator produces exactly
the edges of this list, in this pair order). -/
def compute_edges (genomes : List Genome) : List Edge :=
  (List.range genomes.length).flatMap (fun i =>
    (List.range' (i + 1) (genomes.length - (i + 1))).map (fun j =>
      { species_a := i
        species_b := j
        similarity := needleman_wunsch blosum62Score (genomes.getD i []) (genomes.getD j []) }))

/-- Insertion into a list kept sorted by non-increasing similarity. -/
def insertEdge (e : Edge) : List Edge → List Edge
  | [] => [e]
  | x :: xs => if x.similarity < e.similarity then e :: x :: xs else x :: insertEdge e xs

/-- The sequence of edges popped from the `BinaryHeap<Edge>` (whose `Ord`
compares `similarity` only): the edge list in non-increasing similarity
order.  Equal keys come off the Rust heap in an unspecified order, so any
similarity-sorted permutation models it; this one keeps ties in list order. -/
def sortEdgesDesc (l : List Edge) : List Edge := l.foldr insertEdge []

/-- The body of the `while let Some(edge) = heap.pop()` loop of
`Kruskal::cluster`: look up both current clusters and, when distinct, build
the merged node, push it, and merge. -/
def clusterStep {T : Type} [Inhabited T] (m : ClusterManager T) (e : Edge) : ClusterManager T :=
  let g1 := m.get e.species_a
  let ca := g1.1
  let g2 := g1.2.get e.species_b
  let cb := g2.1
  let m2 := g2.2
  if ca ≠ cb then
    let new_cluster :=
      Cluster.node (m2.clusters.getD ca default) (m2.clusters.getD cb default) e.similarity
    let r := m2.add_cluster new_cluster
    r.2.merge ca cb r.1
  else m2

/-- `Kruskal::cluster` for a vector of `Species` (leaf type: the name).  The
source file carries an unresolved merge conflict on the emptiness guard, but
both sides are equivalent: `names` and `genomes` come from unzipping the same
vector, so `names.is_empty() || genomes.is_empty()` iff `names.is_empty()`. -/
def cluster (species : List Species) : Option (Cluster String) :=
  let names := species.map Species.name
  let genomes := species.map Species.genome
  if names.isEmpty then none
  else
    let manager := ClusterManager.new (create_initial_clusters names)
    let heap := sortEdgesDesc (compute_edges genomes)
    (heap.foldl clusterStep manager).root

/-! ## Claim theorems for the aligner -/

/-- C6: for every two sequences over the 24-symbol alphabet, every
substitution table and every gap penalty, `align_dp_table` returns `H[m][n]`
of the reference recurrence of spec §4.B (embedded as `specH`). -/
theorem claim_C6_align_dp_table_matches_recurrence
    (a b : List AminoAcid) (g : Int) (t : AminoAcid → AminoAcid → Int) :
    align_dp_table a b g t = specH a b g t a.length b.length :=
  align_dp_table_eq_specH a b g t

/-- C7: `needleman_wunsch` fixes the gap penalty at `-5` and satisfies the DP
boundary contract: `NW(a, ε) = |a| · (-5)`, `NW(ε, b) = |b| · (-5)`,
`NW(ε, ε) = 0`, and in particular `NW("", "ARN") = -15`. -/
theorem claim_C7_needleman_boundary :
    (∀ (t : AminoAcid → AminoAcid → Int) (a : List AminoAcid),
        needleman_wunsch t a [] = (a.length : Int) * (-5)) ∧
    (∀ (t : AminoAcid → AminoAcid → Int) (b : List AminoAcid),
        needleman_wunsch t [] b = (b.length : Int) * (-5)) ∧
    needleman_wunsch blosum62Score [] [] = 0 ∧
    needleman_wunsch blosum62Score [] [.Alanine, .Arginine, .Asparagine] = -15 := by
  refine ⟨?_, ?_, ?_, ?_⟩
  · intro t a
    rw [needleman_wunsch_eq_specH]
    simp only [List.length_nil]
    exact specH_col0 a [] (-5) t a.length
  · intro t b
    rw [needleman_wunsch_eq_specH]
    simp only [List.length_nil]
    exact specH_row0 [] b (-5) t b.length
  · rw [needleman_wunsch_eq_specH]
    simp [specH]
  · rw [needleman_wunsch_eq_specH]
    have h := specH_row0 [] [AminoAcid.Alanine, AminoAcid.Arginine, AminoAcid.Asparagine]
      (-5) blosum62Score 3
    simpa using h

/-- C8: `needleman_wunsch` is symmetric in its two sequences; this rests on
the (spec-modelled) BLOSUM62 matrix being symmetric, which §4.A requires. -/
theorem claim_C8_needleman_symmetric (a b : List AminoAcid) :
    needleman_wunsch blosum62Score a b = needleman_wunsch blosum62Score b a :=
  align_symm a b (-5) blosum62Score blosum62Score_symm

/-! ## Tree measures -/

/-- The leaf labels of a cluster tree, left to right. -/
def leafList {T : Type} : Cluster T → List T
  | .leaf x => [x]
  | .node l r _ => leafList l ++ leafList r

/-- The number of internal nodes of a cluster tree. -/
def nodeCount {T : Type} : Cluster T → Nat
  | .leaf _ => 0
  | .node l r _ => nodeCount l + nodeCount r + 1

/-- Every `Cluster` node has exactly two children, so internal nodes number
one less than leaves. -/
theorem nodeCount_add_one {T : Type} (t : Cluster T) :
    nodeCount t + 1 = (leafList t).length := by
  induction t with
  | leaf x => rfl
  | node l r s ihl ihr => simp [nodeCount, leafList, ← ihl, ← ihr]; omega

/-- `s` is at most the similarity at the top of `t` (trivial for leaves). -/
def childSimLB {T : Type} : Cluster T → Int → Prop
  | .leaf _, _ => True
  | .node _ _ sim, s => s ≤ sim

/-- Similarities weakly decrease toward the root: every internal node's
similarity is at most the similarity of each of its internal children
(equivalently, similarities are non-decreasing along root-to-leaf paths). -/
def monoTowardRoot {T : Type} : Cluster T → Prop
  | .leaf _ => True
  | .node l r s => monoTowardRoot l ∧ monoTowardRoot r ∧ childSimLB l s ∧ childSimLB r s

/-- The similarity at the top of `t` is at most `s` (trivial for leaves). -/
def childSimUB {T : Type} : Cluster T → Int → Prop
  | .leaf _, _ => True
  | .node _ _ sim, s => sim ≤ s

/-- The ordering claimed by spec §8.4 as written: every internal node's
similarity is at least the similarity of each of its internal children
(similarities non-increasing along every root-to-leaf path). -/
def monoTowardLeaves {T : Type} : Cluster T → Prop
  | .leaf _ => True
  | .node l r s => monoTowardLeaves l ∧ monoTowardLeaves r ∧ childSimUB l s ∧ childSimUB r s

instance {T : Type} (t : Cluster T) (s : Int) : Decidable (childSimLB t s) := by
  cases t <;> simp only [childSimLB] <;> infer_instance

instance {T : Type} (t : Cluster T) (s : Int) : Decidable (childSimUB t s) := by
  cases t <;> simp only [childSimUB] <;> infer_instance

/-- Decidability of `monoTowardRoot`, by structural recursion. -/
def monoTowardRootDec {T : Type} : (t : Cluster T) → Decidable (monoTowardRoot t)
  | .leaf _ => .isTrue trivial
  | .node l r s =>
    letI := monoTowardRootDec l
    letI := monoTowardRootDec r
    decidable_of_iff (monoTowardRoot l ∧ monoTowardRoot r ∧ childSimLB l s ∧ childSimLB r s)
      (by simp only [monoTowardRoot])

instance {T : Type} (t : Cluster T) : Decidable (monoTowardRoot t) := monoTowardRootDec t

/-- Decidability of `monoTowardLeaves`, by structural recursion. -/
def monoTowardLeavesDec {T : Type} : (t : Cluster T) → Decidable (monoTowardLeaves t)
  | .leaf _ => .isTrue trivial
  | .node l r s =>
    letI := monoTowardLeavesDec l
    letI := monoTowardLeavesDec r
    decidable_of_iff (monoTowardLeaves l ∧ monoTowardLeaves r ∧ childSimUB l s ∧ childSimUB r s)
      (by simp only [monoTowardLeaves])

instance {T : Type} (t : Cluster T) : Decidable (monoTowardLeaves t) := monoTowardLeavesDec t

/-! ## Symbolic execution of the union-find operations on the states the
driver produces -/

theorem list_set_getD_self (l : List Int) (i : Nat) : l.set i (l.getD i 0) = l := by
  induction l generalizing i with
  | nil => rfl
  | cons a t ih =>
    cases i with
    | zero => simp [List.getD]
    | succ i => simp [List.getD_eq_getElem?_getD] at ih ⊢; exact ih i

theorem ufFind_root (p : List Int) (x : Nat) (h : p.getD x 0 < 0) : ufFind p x = (x, p) := by
  unfold ufFind
  cases hl : p.length with
  | zero =>
    have hp : p = [] := List.length_eq_zero.mp hl
    subst hp
    simp [List.getD] at h
  | succ k =>
    simp only [findAux]
    rw [if_pos h]

theorem ufFind_child (p : List Int) (x r : Nat) (hx : p.getD x 0 = (r : Int))
    (hr : p.getD r 0 < 0) (hlen : 2 ≤ p.length) : ufFind p x = (r, p) := by
  unfold ufFind
  obtain ⟨k, hk⟩ : ∃ k, p.length = k + 2 := ⟨p.length - 2, by omega⟩
  rw [hk]
  simp only [findAux]
  rw [hx]
  rw [if_neg (by omega)]
  simp only [Int.toNat_natCast]
  rw [if_pos hr]
  simp only
  rw [← hx, list_set_getD_self]

/-- Helper naming the parent vector produced by a successful union of roots
`big` and `small`. -/
def unionResult (p : List Int) (big small : Nat) : List Int :=
  (p.set big (p.getD big 0 + p.getD small 0)).set small (big : Int)

theorem unionResult_length (p : List Int) (big small : Nat) :
    (unionResult p big small).length = p.length := by
  simp [unionResult]

theorem unionResult_getD_small (p : List Int) (big small : Nat) (h : small < p.length) :
    (unionResult p big small).getD small 0 = (big : Int) := by
  unfold unionResult
  exact getD_set_self _ _ _ (by simpa using h)

theorem unionResult_getD_big (p : List Int) (big small : Nat) (hne : big ≠ small)
    (h : big < p.length) :
    (unionResult p big small).getD big 0 = p.getD big 0 + p.getD small 0 := by
  unfold unionResult
  rw [getD_set_ne _ _ _ _ (Ne.symm hne)]
  exact getD_set_self _ _ _ h

theorem unionResult_getD_other (p : List Int) (big small z : Nat) (h1 : z ≠ big)
    (h2 : z ≠ small) : (unionResult p big small).getD z 0 = p.getD z 0 := by
  unfold unionResult
  rw [getD_set_ne _ _ _ _ (Ne.symm h2), getD_set_ne _ _ _ _ (Ne.symm h1)]

theorem ufUnion_roots (p : List Int) (a b : Nat) (ha : p.getD a 0 < 0)
    (hb : p.getD b 0 < 0) (hne : a ≠ b) :
    ufUnion p a b =
      (true, if p.getD a 0 ≤ p.getD b 0 then unionResult p a b else unionResult p b a) := by
  unfold ufUnion
  rw [ufFind_root p a ha]
  simp only
  rw [ufFind_root p b hb]
  simp only
  rw [if_neg hne]
  split
  · rfl
  · rfl

/-! ## Characterisation of `merge` and `clusterStep` on the states the driver
produces (all `cluster_map` entries are union-find roots) -/

theorem getD_mem_of_lt {α : Type} (l : List α) (n : Nat) (d : α) (h : n < l.length) :
    l.getD n d ∈ l := by
  rw [List.getD_eq_getElem?_getD, List.getElem?_eq_getElem h]
  exact List.getElem_mem h

theorem merge_fold_eq (q : List Int) (a b new_id big small : Nat)
    (hset : (big = a ∧ small = b) ∨ (big = b ∧ small = a))
    (hqsmall : q.getD small 0 = (big : Int))
    (hqbig : q.getD big 0 < 0)
    (hqlen : 2 ≤ q.length) :
    ∀ (l : List Nat) (acc : List Nat),
      (∀ c ∈ l, c = a ∨ c = b ∨ q.getD c 0 < 0) →
      l.foldl
        (fun (x : List Int × List Nat) entry =>
          let f := ufFind x.1 entry
          if f.1 = a ∨ f.1 = b then (f.2, x.2 ++ [new_id]) else (f.2, x.2 ++ [entry]))
        (q, acc)
      = (q, acc ++ l.map (fun c => if c = a ∨ c = b then new_id else c)) := by
  intro l
  induction l with
  | nil =>
    intro acc h
    simp
  | cons c t ih =>
    intro acc h
    rw [List.foldl_cons, List.map_cons]
    by_cases hcab : c = a ∨ c = b
    · have hcbs : c = big ∨ c = small := by
        rcases hset with ⟨h1, h2⟩ | ⟨h1, h2⟩ <;> rcases hcab with h3 | h3 <;> omega
      have hbigab : big = a ∨ big = b := by
        rcases hset with ⟨h1, h2⟩ | ⟨h1, h2⟩ <;> omega
      have hfind : ufFind q c = (big, q) := by
        rcases hcbs with h1 | h1
        · rw [h1]; exact ufFind_root q big hqbig
        · rw [h1]; exact ufFind_child q small big hqsmall hqbig hqlen
      simp only [hfind, if_pos hbigab, if_pos hcab]
      rw [ih (acc ++ [new_id]) (fun x hx => h x (List.mem_cons_of_mem c hx))]
      simp
    · have hcroot : q.getD c 0 < 0 := by
        rcases h c (List.mem_cons_self c t) with h1 | h1 | h1
        · exact absurd (Or.inl h1) hcab
        · exact absurd (Or.inr h1) hcab
        · exact h1
      simp only [ufFind_root q c hcroot, if_neg hcab]
      rw [ih (acc ++ [c]) (fun x hx => h x (List.mem_cons_of_mem c hx))]
      simp

theorem merge_eq {T : Type} (m : ClusterManager T) (a b new_id : Nat)
    (ha : m.uf.getD a 0 < 0) (hb : m.uf.getD b 0 < 0) (hne : a ≠ b)
    (halen : a < m.uf.length) (hblen : b < m.uf.length)
    (hentries : ∀ c ∈ m.cluster_map, c = a ∨ c = b ∨ m.uf.getD c 0 < 0) :
    ∃ big small, ((big = a ∧ small = b) ∨ (big = b ∧ small = a)) ∧
      m.uf.getD big 0 ≤ m.uf.getD small 0 ∧
      (m.merge a b new_id).uf = unionResult m.uf big small ∧
      (m.merge a b new_id).clusters = m.clusters ∧
      (m.merge a b new_id).cluster_map
        = m.cluster_map.map (fun c => if c = a ∨ c = b then new_id else c) := by
  have hlen2 : 2 ≤ m.uf.length := by
    rcases Nat.lt_or_ge a b with hlt | hge
    · omega
    · have : b < a := by omega
      omega
  have hfold : ∀ (big small : Nat),
      ((big = a ∧ small = b) ∨ (big = b ∧ small = a)) →
      (m.cluster_map.foldl
        (fun (x : List Int × List Nat) entry =>
          let f := ufFind x.1 entry
          if f.1 = a ∨ f.1 = b then (f.2, x.2 ++ [new_id]) else (f.2, x.2 ++ [entry]))
        (unionResult m.uf big small, []))
      = (unionResult m.uf big small,
         m.cluster_map.map (fun c => if c = a ∨ c = b then new_id else c)) := by
    intro big small hset
    have hbs : big ≠ small := by rcases hset with ⟨rfl, rfl⟩ | ⟨rfl, rfl⟩ <;> omega
    have hbl : big < m.uf.length := by rcases hset with ⟨rfl, rfl⟩ | ⟨rfl, rfl⟩ <;> omega
    have hsl : small < m.uf.length := by rcases hset with ⟨rfl, rfl⟩ | ⟨rfl, rfl⟩ <;> omega
    have hnegb : m.uf.getD big 0 < 0 := by rcases hset with ⟨rfl, rfl⟩ | ⟨rfl, rfl⟩ <;> assumption
    have hnegs : m.uf.getD small 0 < 0 := by rcases hset with ⟨rfl, rfl⟩ | ⟨rfl, rfl⟩ <;> assumption
    have h := merge_fold_eq (unionResult m.uf big small) a b new_id big small hset
      (unionResult_getD_small _ _ _ hsl)
      (by rw [unionResult_getD_big _ _ _ hbs hbl]; omega)
      (by rw [unionResult_length]; exact hlen2)
      m.cluster_map []
      (fun c hc => by
        rcases hentries c hc with h1 | h1 | h1
        · exact Or.inl h1
        · exact Or.inr (Or.inl h1)
        · by_cases hca : c = a
          · exact Or.inl hca
          · by_cases hcb : c = b
            · exact Or.inr (Or.inl hcb)
            · have hcbig : c ≠ big := by rcases hset with ⟨rfl, rfl⟩ | ⟨rfl, rfl⟩ <;> assumption
              have hcsmall : c ≠ small := by
                rcases hset with ⟨rfl, rfl⟩ | ⟨rfl, rfl⟩ <;> assumption
              exact Or.inr (Or.inr (by
                rw [unionResult_getD_other _ _ _ _ hcbig hcsmall]; exact h1)))
    simpa using h
  unfold ClusterManager.merge
  rw [ufUnion_roots m.uf a b ha hb hne]
  by_cases hcmp : m.uf.getD a 0 ≤ m.uf.getD b 0
  · refine ⟨a, b, Or.inl ⟨rfl, rfl⟩, hcmp, ?_, ?_, ?_⟩ <;>
      simp only [if_pos hcmp, hfold a b (Or.inl ⟨rfl, rfl⟩)]
  · refine ⟨b, a, Or.inr ⟨rfl, rfl⟩, by omega, ?_, ?_, ?_⟩ <;>
      simp only [if_neg hcmp, hfold b a (Or.inr ⟨rfl, rfl⟩)]

theorem clusterStep_char {T : Type} [Inhabited T] (st : ClusterManager T) (e : Edge)
    (haN : e.species_a < st.cluster_map.length) (hbN : e.species_b < st.cluster_map.length)
    (hroot : ∀ c ∈ st.cluster_map, st.uf.getD c 0 < 0)
    (hlt : ∀ c ∈ st.cluster_map, c < st.clusters.length)
    (hcl : st.clusters.length < st.uf.length) :
    (st.cluster_map.getD e.species_a 0 = st.cluster_map.getD e.species_b 0 →
      clusterStep st e = st) ∧
    (st.cluster_map.getD e.species_a 0 ≠ st.cluster_map.getD e.species_b 0 →
      ∃ big small,
        ((big = st.cluster_map.getD e.species_a 0 ∧
          small = st.cluster_map.getD e.species_b 0) ∨
         (big = st.cluster_map.getD e.species_b 0 ∧
          small = st.cluster_map.getD e.species_a 0)) ∧
        st.uf.getD big 0 ≤ st.uf.getD small 0 ∧
        clusterStep st e =
          { uf := unionResult st.uf big small
            clusters := st.clusters ++
              [Cluster.node (st.clusters.getD (st.cluster_map.getD e.species_a 0) default)
                            (st.clusters.getD (st.cluster_map.getD e.species_b 0) default)
                            e.similarity]
            cluster_map := st.cluster_map.map
              (fun c => if c = st.cluster_map.getD e.species_a 0 ∨
                           c = st.cluster_map.getD e.species_b 0
                        then st.clusters.length else c) }) := by
  have hmema : st.cluster_map.getD e.species_a 0 ∈ st.cluster_map := getD_mem_of_lt _ _ _ haN
  have hmemb : st.cluster_map.getD e.species_b 0 ∈ st.cluster_map := getD_mem_of_lt _ _ _ hbN
  have hga : st.get e.species_a = (st.cluster_map.getD e.species_a 0, st) := by
    unfold ClusterManager.get
    rw [ufFind_root _ _ (hroot _ hmema)]
  have hgb : st.get e.species_b = (st.cluster_map.getD e.species_b 0, st) := by
    unfold ClusterManager.get
    rw [ufFind_root _ _ (hroot _ hmemb)]
  constructor
  · intro heq
    unfold clusterStep
    rw [hga]
    simp only
    rw [hgb]
    simp only
    rw [if_neg (by simpa using heq)]
  · intro hne
    unfold clusterStep
    rw [hga]
    simp only
    rw [hgb]
    simp only
    rw [if_pos (by simpa using hne)]
    simp only [ClusterManager.add_cluster]
    have hnid : (st.clusters ++
        [Cluster.node (st.clusters.getD (st.cluster_map.getD e.species_a 0) default)
                      (st.clusters.getD (st.cluster_map.getD e.species_b 0) default)
                      e.similarity]).length - 1 = st.clusters.length := by
      simp
    rw [hnid]
    obtain ⟨big, small, hset, hcmp, huf2, hcl2, hmap2⟩ :=
      merge_eq
        { st with clusters := st.clusters ++
            [Cluster.node (st.clusters.getD (st.cluster_map.getD e.species_a 0) default)
                          (st.clusters.getD (st.cluster_map.getD e.species_b 0) default)
                          e.similarity] }
        (st.cluster_map.getD e.species_a 0) (st.cluster_map.getD e.species_b 0)
        st.clusters.length
        (hroot _ hmema) (hroot _ hmemb) hne
        (lt_trans (hlt _ hmema) hcl) (lt_trans (hlt _ hmemb) hcl)
        (fun c hc => Or.inr (Or.inr (hroot c hc)))
    refine ⟨big, small, hset, hcmp, ?_⟩
    have heta : ({ st with clusters := st.clusters ++
        [Cluster.node (st.clusters.getD (st.cluster_map.getD e.species_a 0) default)
                      (st.clusters.getD (st.cluster_map.getD e.species_b 0) default)
                      e.similarity] } : ClusterManager T).merge
        (st.cluster_map.getD e.species_a 0) (st.cluster_map.getD e.species_b 0)
        st.clusters.length
        = ⟨(({ st with clusters := st.clusters ++
            [Cluster.node (st.clusters.getD (st.cluster_map.getD e.species_a 0) default)
                          (st.clusters.getD (st.cluster_map.getD e.species_b 0) default)
                          e.similarity] } : ClusterManager T).merge
            (st.cluster_map.getD e.species_a 0) (st.cluster_map.getD e.species_b 0)
            st.clusters.length).uf,
           (({ st with clusters := st.clusters ++
            [Cluster.node (st.clusters.getD (st.cluster_map.getD e.species_a 0) default)
                          (st.clusters.getD (st.cluster_map.getD e.species_b 0) default)
                          e.similarity] } : ClusterManager T).merge
            (st.cluster_map.getD e.species_a 0) (st.cluster_map.getD e.species_b 0)
            st.clusters.length).clusters,
           (({ st with clusters := st.clusters ++
            [Cluster.node (st.clusters.getD (st.cluster_map.getD e.species_a 0) default)
                          (st.clusters.getD (st.cluster_map.getD e.species_b 0) default)
                          e.similarity] } : ClusterManager T).merge
            (st.cluster_map.getD e.species_a 0) (st.cluster_map.getD e.species_b 0)
            st.clusters.length).cluster_map⟩ := rfl
    rw [heta, huf2, hcl2, hmap2]

/-! ## The driver invariant -/

theorem toFinset_range_eq (n : Nat) : (List.range n).toFinset = Finset.range n := by
  ext x
  simp [List.mem_toFinset, List.mem_range]

theorem toFinset_map_eq {α β : Type} [DecidableEq α] [DecidableEq β]
    (l : List α) (f : α → β) : (l.map f).toFinset = l.toFinset.image f := by
  ext x
  simp [List.mem_toFinset, List.mem_map]

theorem getD_map_of_lt {α β : Type} (f : α → β) (l : List α) (i : Nat) (d : β) (d2 : α)
    (h : i < l.length) : (l.map f).getD i d = f (l.getD i d2) := by
  rw [List.getD_eq_getElem?_getD, List.getD_eq_getElem?_getD, List.getElem?_map,
      List.getElem?_eq_getElem h]
  simp

theorem getD_append_last {α : Type} (l : List α) (x : α) (d : α) :
    (l ++ [x]).getD l.length d = x := by
  rw [List.getD_eq_getElem?_getD, List.getElem?_append]
  simp

theorem filter_or_perm {α : Type} (l : List α) (p q : α → Bool)
    (hdisj : ∀ x ∈ l, ¬(p x = true ∧ q x = true)) :
    (l.filter (fun x => p x || q x)).Perm (l.filter p ++ l.filter q) := by
  induction l with
  | nil => simp
  | cons a t ih =>
    have iht := ih (fun x hx => hdisj x (List.mem_cons_of_mem a hx))
    by_cases hp : p a
    · have hq : ¬ q a = true := fun hq => hdisj a (List.mem_cons_self a t) ⟨hp, hq⟩
      simp only [List.filter_cons, hp, hq]
      simp only [Bool.true_or, if_true]
      simpa using iht.cons a
    · by_cases hq : q a
      · simp only [List.filter_cons, hp, hq]
        simp only [Bool.false_or, if_true]
        refine (iht.cons a).trans ?_
        simpa using List.perm_middle.symm
      · simp only [List.filter_cons, hp, hq]
        simpa using iht

/-- The names of the species currently mapped to cluster id `c`. -/
def selectNames {T : Type} [Inhabited T] (cmap : List Nat) (names : List T) (c : Nat) :
    List T :=
  ((List.range names.length).filter (fun s => cmap.getD s 0 == c)).map
    (fun s => names.getD s default)

theorem beq_subst_hit (y ca cb nid : Nat) (hy : y ≠ nid) :
    ((if y = ca ∨ y = cb then nid else y) == nid) = ((y == ca) || (y == cb)) := by
  by_cases h1 : y = ca
  · simp [h1]
  · by_cases h2 : y = cb
    · simp [h1, h2]
    · rw [if_neg (by tauto),
          show (y == nid) = false by simpa using hy,
          show (y == ca) = false by simpa using h1,
          show (y == cb) = false by simpa using h2]
      rfl

theorem beq_subst_miss (y ca cb nid c : Nat) (hc1 : c ≠ ca) (hc2 : c ≠ cb) (hc3 : c ≠ nid) :
    ((if y = ca ∨ y = cb then nid else y) == c) = (y == c) := by
  by_cases h1 : y = ca
  · simp [h1, Ne.symm hc3, Ne.symm hc1]
  · by_cases h2 : y = cb
    · simp [h1, h2, Ne.symm hc3, Ne.symm hc2]
    · simp [h1, h2]

theorem selectNames_merge {T : Type} [Inhabited T] (cmap : List Nat) (names : List T)
    (ca cb nid : Nat) (hlen : cmap.length = names.length) (hne : ca ≠ cb)
    (hnid : ∀ x ∈ cmap, x ≠ nid) :
    (selectNames (cmap.map (fun x => if x = ca ∨ x = cb then nid else x)) names nid).Perm
      (selectNames cmap names ca ++ selectNames cmap names cb) := by
  unfold selectNames
  have hcond : ∀ s ∈ List.range names.length,
      ((cmap.map (fun x => if x = ca ∨ x = cb then nid else x)).getD s 0 == nid)
        = ((cmap.getD s 0 == ca) || (cmap.getD s 0 == cb)) := by
    intro s hs
    have hslt : s < cmap.length := by
      rw [hlen]; exact List.mem_range.mp hs
    rw [getD_map_of_lt _ _ _ _ 0 hslt]
    exact beq_subst_hit _ _ _ _ (hnid (cmap.getD s 0) (getD_mem_of_lt _ _ _ hslt))
  rw [List.filter_congr hcond]
  refine (List.Perm.map _ (filter_or_perm _ _ _ ?_)).trans ?_
  · intro x hx hpq
    obtain ⟨h1, h2⟩ := hpq
    simp only [beq_iff_eq] at h1 h2
    omega
  · rw [List.map_append]

theorem selectNames_other {T : Type} [Inhabited T] (cmap : List Nat) (names : List T)
    (ca cb nid c : Nat) (hlen : cmap.length = names.length)
    (hc1 : c ≠ ca) (hc2 : c ≠ cb) (hc3 : c ≠ nid) :
    selectNames (cmap.map (fun x => if x = ca ∨ x = cb then nid else x)) names c
      = selectNames cmap names c := by
  unfold selectNames
  have hcond : ∀ s ∈ List.range names.length,
      ((cmap.map (fun x => if x = ca ∨ x = cb then nid else x)).getD s 0 == c)
        = (cmap.getD s 0 == c) := by
    intro s hs
    have hslt : s < cmap.length := by
      rw [hlen]; exact List.mem_range.mp hs
    rw [getD_map_of_lt _ _ _ _ 0 hslt]
    exact beq_subst_miss _ _ _ _ _ hc1 hc2 hc3
  rw [List.filter_congr hcond]

/-- The invariant maintained by the Kruskal driver loop, for input `names` and
remaining popped edges `rem`:  capacities and lengths are as allocated, every
`cluster_map` entry is an in-range union-find root, the slots after the last
cluster are untouched singletons, the distinct-entry count balances the
cluster count, and every current cluster tree carries the names of exactly its
member species, is monotone toward the root, and has top similarity at least
every remaining edge's similarity. -/
structure GoodState {T : Type} [Inhabited T] (names : List T) (rem : List Edge)
    (st : ClusterManager T) : Prop where
  huf : st.uf.length = 2 * names.length
  hmaplen : st.cluster_map.length = names.length
  hsum : st.clusters.length + st.cluster_map.toFinset.card = 2 * names.length
  hlt : ∀ c ∈ st.cluster_map, c < st.clusters.length
  hroot : ∀ c ∈ st.cluster_map, st.uf.getD c 0 < 0
  hfresh : ∀ j, st.clusters.length ≤ j → j < 2 * names.length → st.uf.getD j 0 = -1
  hleaf : ∀ c ∈ st.cluster_map,
    (leafList (st.clusters.getD c default)).Perm (selectNames st.cluster_map names c)
  hmono : ∀ c ∈ st.cluster_map, monoTowardRoot (st.clusters.getD c default)
  hbound : ∀ c ∈ st.cluster_map, ∀ e ∈ rem,
    childSimLB (st.clusters.getD c default) e.similarity

theorem filter_range_beq (n c : Nat) :
    (List.range n).filter (fun s => s == c) = if c < n then [c] else [] := by
  induction n with
  | zero => simp
  | succ n ih =>
    rw [List.range_succ, List.filter_append, ih]
    by_cases h : c < n
    · rw [if_pos h, if_pos (by omega)]
      have : (n == c) = false := by simp; omega
      simp [List.filter, this]
    · by_cases h2 : c = n
      · subst h2
        rw [if_neg h, if_pos (by omega)]
        simp [List.filter]
      · rw [if_neg h, if_neg (by omega)]
        have : (n == c) = false := by simp; omega
        simp [List.filter, this]

/-- The initial manager satisfies the invariant for any remaining edge list. -/
theorem goodState_init {T : Type} [Inhabited T] (names : List T) (rem : List Edge) :
    GoodState names rem (ClusterManager.new (create_initial_clusters names)) := by
  have hclen : (create_initial_clusters names).length = names.length := by
    simp [create_initial_clusters]
  have hmem : ∀ c ∈ List.range names.length, c < names.length := by
    intro c hc; exact List.mem_range.mp hc
  have hgetD : ∀ c, c < names.length →
      (create_initial_clusters names).getD c default = Cluster.leaf (names.getD c default) := by
    intro c hc
    unfold create_initial_clusters
    exact getD_map_of_lt _ _ _ _ default hc
  have hsel : ∀ c, c < names.length →
      selectNames (List.range names.length) names c = [names.getD c default] := by
    intro c hc
    unfold selectNames
    have : ∀ s ∈ List.range names.length,
        ((List.range names.length).getD s 0 == c) = (s == c) := by
      intro s hs
      have hslt := List.mem_range.mp hs
      have : (List.range names.length).getD s 0 = s := by
        rw [List.getD_eq_getElem?_getD, List.getElem?_range hslt]
        rfl
      rw [this]
    rw [List.filter_congr this, filter_range_beq, if_pos hc]
    rfl
  constructor
  · simp [ClusterManager.new, ufNew, hclen]
  · simp [ClusterManager.new, hclen]
  · simp [ClusterManager.new, hclen, toFinset_range_eq]
    omega
  · intro c hc
    simp only [ClusterManager.new] at hc ⊢
    rw [hclen] at hc ⊢
    exact hmem c hc
  · intro c hc
    simp only [ClusterManager.new] at hc ⊢
    rw [hclen] at hc
    have hlt2 : c < 2 * names.length := by
      have := hmem c hc; omega
    simp only [ufNew, hclen]
    rw [List.getD_eq_getElem?_getD, List.getElem?_replicate, if_pos hlt2]
    norm_num
  · intro j h1 h2
    simp only [ClusterManager.new, ufNew, hclen] at h1 h2 ⊢
    rw [List.getD_eq_getElem?_getD, List.getElem?_replicate, if_pos h2]
    rfl
  · intro c hc
    simp only [ClusterManager.new] at hc ⊢
    rw [hclen] at hc ⊢
    have hcn := hmem c hc
    rw [hgetD c hcn, hsel c hcn]
    simp [leafList]
  · intro c hc
    simp only [ClusterManager.new] at hc ⊢
    rw [hclen] at hc
    rw [hgetD c (hmem c hc)]
    trivial
  · intro c hc e he
    simp only [ClusterManager.new] at hc ⊢
    rw [hclen] at hc
    rw [hgetD c (hmem c hc)]
    trivial

theorem image_subst_card (S : Finset Nat) (ca cb nid : Nat) (hca : ca ∈ S) (hcb : cb ∈ S)
    (hne : ca ≠ cb) (hnid : nid ∉ S) :
    (S.image (fun x => if x = ca ∨ x = cb then nid else x)).card = S.card - 1 := by
  have himg : S.image (fun x => if x = ca ∨ x = cb then nid else x)
      = insert nid ((S.erase ca).erase cb) := by
    ext x
    simp only [Finset.mem_image, Finset.mem_insert, Finset.mem_erase]
    constructor
    · rintro ⟨y, hy, hfy⟩
      by_cases hy2 : y = ca ∨ y = cb
      · rw [if_pos hy2] at hfy
        exact Or.inl hfy.symm
      · rw [if_neg hy2] at hfy
        push_neg at hy2
        subst hfy
        exact Or.inr ⟨hy2.2, hy2.1, hy⟩
    · rintro (rfl | ⟨hxcb, hxca, hxS⟩)
      · exact ⟨ca, hca, by simp⟩
      · exact ⟨x, hxS, by rw [if_neg (by tauto)]⟩
  rw [himg]
  have hnid2 : nid ∉ (S.erase ca).erase cb := fun h =>
    hnid (Finset.mem_of_mem_erase (Finset.mem_of_mem_erase h))
  rw [Finset.card_insert_of_not_mem hnid2,
      Finset.card_erase_of_mem (Finset.mem_erase.mpr ⟨Ne.symm hne, hcb⟩),
      Finset.card_erase_of_mem hca]
  have h2 : 2 ≤ S.card := Finset.one_lt_card.mpr ⟨ca, hca, cb, hcb, hne⟩
  omega

/-- A merging `clusterStep` re-establishes the driver invariant. -/
theorem goodState_merge_step {T : Type} [Inhabited T] (names : List T) (e : Edge)
    (rem : List Edge) (st : ClusterManager T) (ca cb : Nat)
    (hGS : GoodState names (e :: rem) st)
    (hca : ca ∈ st.cluster_map) (hcb : cb ∈ st.cluster_map) (hne : ca ≠ cb)
    (hsorted : ∀ e2 ∈ rem, e2.similarity ≤ e.similarity)
    (big small : Nat) (hset : (big = ca ∧ small = cb) ∨ (big = cb ∧ small = ca)) :
    GoodState names rem
      { uf := unionResult st.uf big small
        clusters := st.clusters ++
          [Cluster.node (st.clusters.getD ca default) (st.clusters.getD cb default)
            e.similarity]
        cluster_map := st.cluster_map.map
          (fun c => if c = ca ∨ c = cb then st.clusters.length else c) } := by
  obtain ⟨huf, hmaplen, hsum, hlt, hroot, hfresh, hleaf, hmono, hbound⟩ := hGS
  have hbigm : big ∈ st.cluster_map := by rcases hset with ⟨rfl, rfl⟩ | ⟨rfl, rfl⟩ <;> assumption
  have hsmallm : small ∈ st.cluster_map := by
    rcases hset with ⟨rfl, rfl⟩ | ⟨rfl, rfl⟩ <;> assumption
  have hbiglt : big < st.clusters.length := hlt big hbigm
  have hsmalllt : small < st.clusters.length := hlt small hsmallm
  have hcard2 : 2 ≤ st.cluster_map.toFinset.card :=
    Finset.one_lt_card.mpr ⟨ca, List.mem_toFinset.mpr hca, cb, List.mem_toFinset.mpr hcb, hne⟩
  have hcl2N : st.clusters.length < 2 * names.length := by omega
  have hnid_not : ∀ x ∈ st.cluster_map, x ≠ st.clusters.length := by
    intro x hx
    have := hlt x hx
    omega
  have hmemchar : ∀ x ∈ st.cluster_map.map
      (fun c => if c = ca ∨ c = cb then st.clusters.length else c),
      x = st.clusters.length ∨ (x ∈ st.cluster_map ∧ x ≠ ca ∧ x ≠ cb) := by
    intro x hx
    obtain ⟨y, hy, hfy⟩ := List.mem_map.mp hx
    by_cases hy2 : y = ca ∨ y = cb
    · rw [if_pos hy2] at hfy
      exact Or.inl hfy.symm
    · rw [if_neg hy2] at hfy
      push_neg at hy2
      subst hfy
      exact Or.inr ⟨hy, hy2.1, hy2.2⟩
  refine ⟨?_, ?_, ?_, ?_, ?_, ?_, ?_, ?_, ?_⟩
  · dsimp only
    rw [unionResult_length, huf]
  · dsimp only
    rw [List.length_map, hmaplen]
  · dsimp only
    rw [toFinset_map_eq, image_subst_card st.cluster_map.toFinset ca cb st.clusters.length
      (List.mem_toFinset.mpr hca) (List.mem_toFinset.mpr hcb) hne
      (fun h => hnid_not _ (List.mem_toFinset.mp h) rfl)]
    simp only [List.length_append, List.length_cons, List.length_nil]
    omega
  · intro c hc
    dsimp only at hc ⊢
    simp only [List.length_append, List.length_cons, List.length_nil]
    rcases hmemchar c hc with rfl | ⟨hcm, _, _⟩
    · omega
    · have := hlt c hcm
      omega
  · intro c hc
    dsimp only at hc ⊢
    rcases hmemchar c hc with rfl | ⟨hcm, hc1, hc2⟩
    · rw [unionResult_getD_other _ _ _ _ (by omega) (by omega)]
      rw [hfresh st.clusters.length le_rfl hcl2N]
      norm_num
    · have hcbig : c ≠ big := by rcases hset with ⟨rfl, rfl⟩ | ⟨rfl, rfl⟩ <;> assumption
      have hcsmall : c ≠ small := by rcases hset with ⟨rfl, rfl⟩ | ⟨rfl, rfl⟩ <;> assumption
      rw [unionResult_getD_other _ _ _ _ hcbig hcsmall]
      exact hroot c hcm
  · intro j h1 h2
    dsimp only at h1 h2 ⊢
    simp only [List.length_append, List.length_cons, List.length_nil] at h1
    rw [unionResult_getD_other _ _ _ _ (by omega) (by omega)]
    exact hfresh j (by omega) h2
  · intro c hc
    dsimp only at hc ⊢
    rcases hmemchar c hc with rfl | ⟨hcm, hc1, hc2⟩
    · rw [getD_append_last]
      refine List.Perm.trans ?_ (selectNames_merge st.cluster_map names ca cb
        st.clusters.length hmaplen hne hnid_not).symm
      simp only [leafList]
      exact List.Perm.append (hleaf ca hca) (hleaf cb hcb)
    · rw [List.getD_append _ _ _ _ (hlt c hcm),
          selectNames_other st.cluster_map names ca cb st.clusters.length c hmaplen
            hc1 hc2 (hnid_not c hcm)]
      exact hleaf c hcm
  · intro c hc
    dsimp only at hc ⊢
    rcases hmemchar c hc with rfl | ⟨hcm, hc1, hc2⟩
    · rw [getD_append_last]
      exact ⟨hmono ca hca, hmono cb hcb,
        hbound ca hca e (List.mem_cons_self e rem),
        hbound cb hcb e (List.mem_cons_self e rem)⟩
    · rw [List.getD_append _ _ _ _ (hlt c hcm)]
      exact hmono c hcm
  · intro c hc e2 he2
    dsimp only at hc ⊢
    rcases hmemchar c hc with rfl | ⟨hcm, hc1, hc2⟩
    · rw [getD_append_last]
      exact hsorted e2 he2
    · rw [List.getD_append _ _ _ _ (hlt c hcm)]
      exact hbound c hcm e2 (List.mem_cons_of_mem e he2)

/-- One driver step preserves the invariant, preserves equality of map
entries, and makes the popped edge's endpoints agree afterwards. -/
theorem clusterStep_preserves {T : Type} [Inhabited T] (names : List T) (e : Edge)
    (rem : List Edge) (st : ClusterManager T)
    (hGS : GoodState names (e :: rem) st)
    (haN : e.species_a < names.length) (hbN : e.species_b < names.length)
    (hsorted : ∀ e2 ∈ rem, e2.similarity ≤ e.similarity) :
    GoodState names rem (clusterStep st e) ∧
    (∀ i j, i < names.length → j < names.length →
      st.cluster_map.getD i 0 = st.cluster_map.getD j 0 →
      (clusterStep st e).cluster_map.getD i 0 = (clusterStep st e).cluster_map.getD j 0) ∧
    ((clusterStep st e).cluster_map.getD e.species_a 0
      = (clusterStep st e).cluster_map.getD e.species_b 0) := by
  have haM : e.species_a < st.cluster_map.length := by rw [hGS.hmaplen]; exact haN
  have hbM : e.species_b < st.cluster_map.length := by rw [hGS.hmaplen]; exact hbN
  have hcard1 : 1 ≤ st.cluster_map.toFinset.card :=
    Finset.card_pos.mpr ⟨st.cluster_map.getD e.species_a 0,
      List.mem_toFinset.mpr (getD_mem_of_lt st.cluster_map e.species_a 0 haM)⟩
  have hcl : st.clusters.length < st.uf.length := by
    have h1 := hGS.hsum
    have h2 := hGS.huf
    omega
  obtain ⟨hchar1, hchar2⟩ := clusterStep_char st e haM hbM hGS.hroot hGS.hlt hcl
  by_cases hcacb : st.cluster_map.getD e.species_a 0 = st.cluster_map.getD e.species_b 0
  · rw [hchar1 hcacb]
    exact ⟨⟨hGS.huf, hGS.hmaplen, hGS.hsum, hGS.hlt, hGS.hroot, hGS.hfresh, hGS.hleaf,
      hGS.hmono, fun c hc e2 he2 => hGS.hbound c hc e2 (List.mem_cons_of_mem e he2)⟩,
      fun i j _ _ h => h, hcacb⟩
  · obtain ⟨big, small, hset, hcmp, hstep⟩ := hchar2 hcacb
    rw [hstep]
    refine ⟨goodState_merge_step names e rem st _ _ hGS
      (getD_mem_of_lt _ _ _ haM) (getD_mem_of_lt _ _ _ hbM) hcacb hsorted big small hset,
      ?_, ?_⟩
    · intro i j hi hj h
      dsimp only
      rw [getD_map_of_lt _ _ _ _ 0 (by rw [hGS.hmaplen]; exact hi),
          getD_map_of_lt _ _ _ _ 0 (by rw [hGS.hmaplen]; exact hj), h]
    · dsimp only
      rw [getD_map_of_lt _ _ _ _ 0 haM, getD_map_of_lt _ _ _ _ 0 hbM,
          if_pos (Or.inl rfl), if_pos (Or.inr rfl)]

/-- Folding the driver over the first part of a sorted edge sequence keeps the
invariant, with the second part as the remaining edges. -/
theorem foldl_clusterStep_GS {T : Type} [Inhabited T] (names : List T) :
    ∀ (l1 l2 : List Edge) (st : ClusterManager T),
      GoodState names (l1 ++ l2) st →
      List.Pairwise (fun x y => y.similarity ≤ x.similarity) (l1 ++ l2) →
      (∀ e ∈ l1, e.species_a < names.length ∧ e.species_b < names.length) →
      GoodState names l2 (l1.foldl clusterStep st) := by
  intro l1
  induction l1 with
  | nil =>
    intro l2 st hGS _ _
    exact hGS
  | cons e t ih =>
    intro l2 st hGS hpair hok
    rw [List.cons_append] at hGS hpair
    rw [List.foldl_cons]
    obtain ⟨hsorted, htail⟩ := List.pairwise_cons.mp hpair
    have hstep := clusterStep_preserves names e (t ++ l2) st hGS
      (hok e (List.mem_cons_self e t)).1 (hok e (List.mem_cons_self e t)).2
      (fun e2 he2 => hsorted e2 he2)
    have hsorted2 : ∀ e2 ∈ t ++ l2, e2.similarity ≤ e.similarity := hsorted
    have hGS2 : GoodState names (t ++ l2) (clusterStep st e) := by
      have := hstep.1
      exact ⟨this.huf, this.hmaplen, this.hsum, this.hlt, this.hroot, this.hfresh,
        this.hleaf, this.hmono,
        fun c hc e2 he2 => this.hbound c hc e2 he2⟩
    exact ih l2 (clusterStep st e) hGS2 htail (fun e2 he2 => hok e2 (List.mem_cons_of_mem e he2))

/-- Folding the driver preserves equality between two map entries. -/
theorem foldl_clusterStep_pres_eq {T : Type} [Inhabited T] (names : List T) :
    ∀ (l1 l2 : List Edge) (st : ClusterManager T) (i j : Nat),
      GoodState names (l1 ++ l2) st →
      List.Pairwise (fun x y => y.similarity ≤ x.similarity) (l1 ++ l2) →
      (∀ e ∈ l1, e.species_a < names.length ∧ e.species_b < names.length) →
      i < names.length → j < names.length →
      st.cluster_map.getD i 0 = st.cluster_map.getD j 0 →
      (l1.foldl clusterStep st).cluster_map.getD i 0
        = (l1.foldl clusterStep st).cluster_map.getD j 0 := by
  intro l1
  induction l1 with
  | nil =>
    intro l2 st i j _ _ _ _ _ h
    exact h
  | cons e t ih =>
    intro l2 st i j hGS hpair hok hi hj h
    rw [List.cons_append] at hGS hpair
    rw [List.foldl_cons]
    obtain ⟨hsorted, htail⟩ := List.pairwise_cons.mp hpair
    have hstep := clusterStep_preserves names e (t ++ l2) st hGS
      (hok e (List.mem_cons_self e t)).1 (hok e (List.mem_cons_self e t)).2
      (fun e2 he2 => hsorted e2 he2)
    exact ih l2 (clusterStep st e) i j hstep.1 htail
      (fun e2 he2 => hok e2 (List.mem_cons_of_mem e he2)) hi hj
      (hstep.2.1 i j hi hj h)

/-- After the fold has consumed an edge, its two endpoints map to the same
cluster id. -/
theorem foldl_clusterStep_connects {T : Type} [Inhabited T] (names : List T) :
    ∀ (l1 l2 : List Edge) (st : ClusterManager T) (e : Edge), e ∈ l1 →
      GoodState names (l1 ++ l2) st →
      List.Pairwise (fun x y => y.similarity ≤ x.similarity) (l1 ++ l2) →
      (∀ e2 ∈ l1, e2.species_a < names.length ∧ e2.species_b < names.length) →
      (l1.foldl clusterStep st).cluster_map.getD e.species_a 0
        = (l1.foldl clusterStep st).cluster_map.getD e.species_b 0 := by
  intro l1
  induction l1 with
  | nil =>
    intro l2 st e he
    cases he
  | cons e0 t ih =>
    intro l2 st e he hGS hpair hok
    rw [List.cons_append] at hGS hpair
    rw [List.foldl_cons]
    obtain ⟨hsorted, htail⟩ := List.pairwise_cons.mp hpair
    have hstep := clusterStep_preserves names e0 (t ++ l2) st hGS
      (hok e0 (List.mem_cons_self e0 t)).1 (hok e0 (List.mem_cons_self e0 t)).2
      (fun e2 he2 => hsorted e2 he2)
    rcases List.mem_cons.mp he with rfl | het
    · exact foldl_clusterStep_pres_eq names t l2 (clusterStep st e) _ _ hstep.1 htail
        (fun e2 he2 => hok e2 (List.mem_cons_of_mem e he2))
        (hok e (List.mem_cons_self e t)).1 (hok e (List.mem_cons_self e t)).2
        hstep.2.2
    · exact ih l2 (clusterStep st e0) e het hstep.1 htail
        (fun e2 he2 => hok e2 (List.mem_cons_of_mem e0 he2))

/-! ## The heap model: sorting by non-increasing similarity -/

theorem insertEdge_perm (e : Edge) (l : List Edge) : (insertEdge e l).Perm (e :: l) := by
  induction l with
  | nil => exact List.Perm.refl _
  | cons x xs ih =>
    unfold insertEdge
    by_cases h : x.similarity < e.similarity
    · rw [if_pos h]
    · rw [if_neg h]
      exact (ih.cons x).trans (List.Perm.swap e x xs)

theorem sortEdgesDesc_perm (l : List Edge) : (sortEdgesDesc l).Perm l := by
  induction l with
  | nil => exact List.Perm.refl _
  | cons x xs ih =>
    have hfold : sortEdgesDesc (x :: xs) = insertEdge x (sortEdgesDesc xs) := rfl
    rw [hfold]
    exact (insertEdge_perm x (sortEdgesDesc xs)).trans (ih.cons x)

theorem insertEdge_sorted (e : Edge) (l : List Edge)
    (h : List.Pairwise (fun x y => y.similarity ≤ x.similarity) l) :
    List.Pairwise (fun x y => y.similarity ≤ x.similarity) (insertEdge e l) := by
  induction l with
  | nil => simp [insertEdge]
  | cons x xs ih =>
    obtain ⟨hx, hxs⟩ := List.pairwise_cons.mp h
    unfold insertEdge
    by_cases h2 : x.similarity < e.similarity
    · rw [if_pos h2]
      refine List.pairwise_cons.mpr ⟨?_, h⟩
      intro y hy
      rcases List.mem_cons.mp hy with rfl | hy2
      · omega
      · have := hx y hy2
        omega
    · rw [if_neg h2]
      refine List.pairwise_cons.mpr ⟨?_, ih hxs⟩
      intro y hy
      have hy2 := (insertEdge_perm e xs).mem_iff.mp hy
      rcases List.mem_cons.mp hy2 with rfl | hy3
      · omega
      · exact hx y hy3

theorem sortEdgesDesc_sorted (l : List Edge) :
    List.Pairwise (fun x y => y.similarity ≤ x.similarity) (sortEdgesDesc l) := by
  induction l with
  | nil => simp [sortEdgesDesc]
  | cons x xs ih =>
    have hfold : sortEdgesDesc (x :: xs) = insertEdge x (sortEdgesDesc xs) := rfl
    rw [hfold]
    exact insertEdge_sorted x _ ih

/-! ## The produced edges -/

theorem mem_compute_edges (genomes : List Genome) (e : Edge) :
    e ∈ compute_edges genomes ↔
      e.species_a < e.species_b ∧ e.species_b < genomes.length ∧
      e.similarity = needleman_wunsch blosum62Score
        (genomes.getD e.species_a []) (genomes.getD e.species_b []) := by
  unfold compute_edges
  rw [List.mem_flatMap]
  constructor
  · rintro ⟨i, hi, hmem⟩
    obtain ⟨j, hj, hje⟩ := List.mem_map.mp hmem
    obtain ⟨hj1, hj2⟩ := List.mem_range'_1.mp hj
    have hin : i < genomes.length := List.mem_range.mp hi
    subst hje
    dsimp only
    exact ⟨by omega, by omega, rfl⟩
  · intro ⟨h1, h2, h3⟩
    refine ⟨e.species_a, List.mem_range.mpr (by omega), List.mem_map.mpr
      ⟨e.species_b, List.mem_range'_1.mpr ⟨by omega, by omega⟩, ?_⟩⟩
    cases e
    simp only at h3 ⊢
    rw [← h3]

/-! ## The driver end to end -/

/-- The manager state after `Kruskal::cluster` has drained the heap. -/
def finalState (species : List Species) : ClusterManager String :=
  (sortEdgesDesc (compute_edges (species.map Species.genome))).foldl clusterStep
    (ClusterManager.new (create_initial_clusters (species.map Species.name)))

theorem cluster_eq_root (species : List Species) (hne : species ≠ []) :
    cluster species = (finalState species).root := by
  unfold cluster finalState
  rw [if_neg (by simp [hne])]

theorem cluster_edges_ok (species : List Species) :
    ∀ e ∈ sortEdgesDesc (compute_edges (species.map Species.genome)),
      e.species_a < species.length ∧ e.species_b < species.length ∧
      e.species_a ≠ e.species_b := by
  intro e he
  have hmem := (sortEdgesDesc_perm _).mem_iff.mp he
  obtain ⟨h1, h2, _⟩ := (mem_compute_edges _ e).mp hmem
  rw [List.length_map] at h2
  exact ⟨by omega, h2, by omega⟩

theorem cluster_edges_cover (species : List Species) (i j : Nat) (hij : i < j)
    (hj : j < species.length) :
    ∃ e ∈ sortEdgesDesc (compute_edges (species.map Species.genome)),
      e.species_a = i ∧ e.species_b = j := by
  refine ⟨⟨i, j, needleman_wunsch blosum62Score
      ((species.map Species.genome).getD i []) ((species.map Species.genome).getD j [])⟩,
    ?_, rfl, rfl⟩
  refine (sortEdgesDesc_perm _).mem_iff.mpr ?_
  exact (mem_compute_edges _ _).mpr ⟨hij, by rw [List.length_map]; exact hj, rfl⟩

theorem finalState_GS (species : List Species) :
    GoodState (species.map Species.name) [] (finalState species) := by
  have h := foldl_clusterStep_GS (species.map Species.name)
    (sortEdgesDesc (compute_edges (species.map Species.genome))) []
    (ClusterManager.new (create_initial_clusters (species.map Species.name)))
    (by rw [List.append_nil]; exact goodState_init _ _)
    (by rw [List.append_nil]; exact sortEdgesDesc_sorted _)
    (fun e he => by
      have := cluster_edges_ok species e he
      rw [List.length_map]
      exact ⟨this.1, this.2.1⟩)
  exact h

theorem finalState_map_const (species : List Species) (i j : Nat)
    (hi : i < species.length) (hj : j < species.length) :
    (finalState species).cluster_map.getD i 0 = (finalState species).cluster_map.getD j 0 := by
  have key : ∀ i2 j2, i2 < j2 → j2 < species.length →
      (finalState species).cluster_map.getD i2 0
        = (finalState species).cluster_map.getD j2 0 := by
    intro i2 j2 hij hj2
    obtain ⟨e, he, hea, heb⟩ := cluster_edges_cover species i2 j2 hij hj2
    have h := foldl_clusterStep_connects (species.map Species.name)
      (sortEdgesDesc (compute_edges (species.map Species.genome))) []
      (ClusterManager.new (create_initial_clusters (species.map Species.name))) e he
      (by rw [List.append_nil]; exact goodState_init _ _)
      (by rw [List.append_nil]; exact sortEdgesDesc_sorted _)
      (fun e2 he2 => by
        have := cluster_edges_ok species e2 he2
        rw [List.length_map]
        exact ⟨this.1, this.2.1⟩)
    rw [hea, heb] at h
    exact h
  rcases lt_trichotomy i j with h | h | h
  · exact key i j h hj
  · rw [h]
  · exact (key j i h hi).symm

theorem map_getD_range {T : Type} [Inhabited T] (names : List T) :
    (List.range names.length).map (fun s => names.getD s default) = names := by
  apply List.ext_getElem
  · simp
  · intro n h1 h2
    rw [List.getElem_map, List.getElem_range,
        List.getD_eq_getElem?_getD, List.getElem?_eq_getElem h2]
    rfl

theorem selectNames_const {T : Type} [Inhabited T] (cmap : List Nat) (names : List T)
    (c0 : Nat) (hall : ∀ s, s < names.length → cmap.getD s 0 = c0) :
    selectNames cmap names c0 = names := by
  unfold selectNames
  have hcond : ∀ s ∈ List.range names.length, (cmap.getD s 0 == c0) = (true : Bool) := by
    intro s hs
    rw [show cmap.getD s 0 = c0 from hall s (List.mem_range.mp hs)]
    simp
  rw [List.filter_congr hcond]
  simp only [List.filter_true]
  exact map_getD_range names

theorem toFinset_const (l : List Nat) (c : Nat) (hne : l ≠ []) (hall : ∀ x ∈ l, x = c) :
    l.toFinset = {c} := by
  ext x
  simp only [List.mem_toFinset, Finset.mem_singleton]
  constructor
  · exact fun hx => hall x hx
  · rintro rfl
    obtain ⟨y, hy⟩ := List.exists_mem_of_ne_nil l hne
    have hz := hall y hy
    rw [← hz]
    exact hy

/-- The combined result of a complete clustering run on a nonempty input:
the root exists, its leaves are a permutation of the input names, it is
monotone toward the root, and the cluster vector has exactly `2N - 1`
entries. -/
theorem cluster_result (species : List Species) (h1 : 1 ≤ species.length) :
    ∃ t, cluster species = some t ∧
      (leafList t).Perm (species.map Species.name) ∧
      monoTowardRoot t ∧
      (finalState species).clusters.length = 2 * species.length - 1 := by
  have hGSf := finalState_GS species
  have hnn : species ≠ [] := by
    intro h
    rw [h] at h1
    simp at h1
  have hN : (species.map Species.name).length = species.length := List.length_map _ _
  have hmaplen : (finalState species).cluster_map.length = species.length := by
    rw [hGSf.hmaplen, hN]
  have h0 : 0 < (finalState species).cluster_map.length := by omega
  have hc0mem : (finalState species).cluster_map.getD 0 0 ∈ (finalState species).cluster_map :=
    getD_mem_of_lt _ _ _ h0
  have hall : ∀ x ∈ (finalState species).cluster_map,
      x = (finalState species).cluster_map.getD 0 0 := by
    intro x hx
    obtain ⟨n, hn, hxn⟩ := List.getElem_of_mem hx
    have : (finalState species).cluster_map.getD n 0 = x := by
      rw [List.getD_eq_getElem?_getD, List.getElem?_eq_getElem hn, hxn]
      rfl
    rw [← this]
    exact finalState_map_const species n 0 (by omega) (by omega)
  have hroot_eq : (finalState species).root = some ((finalState species).clusters.getD
      ((finalState species).cluster_map.getD 0 0) default) := by
    unfold ClusterManager.root
    have hh : (finalState species).cluster_map.head?
        = some ((finalState species).cluster_map.getD 0 0) := by
      rw [List.head?_eq_getElem?, List.getElem?_eq_getElem h0,
          List.getD_eq_getElem?_getD, List.getElem?_eq_getElem h0]
      rfl
    rw [hh]
    rfl
  refine ⟨_, by rw [cluster_eq_root species hnn, hroot_eq], ?_, ?_, ?_⟩
  · refine (hGSf.hleaf _ hc0mem).trans ?_
    rw [selectNames_const _ _ _ ?_]
    intro s hs
    rw [hN] at hs
    have : (finalState species).cluster_map.getD s 0
        = (finalState species).cluster_map.getD 0 0 :=
      finalState_map_const species s 0 hs (by omega)
    exact this
  · exact hGSf.hmono _ hc0mem
  · have hsum := hGSf.hsum
    have hcard : (finalState species).cluster_map.toFinset.card = 1 := by
      rw [toFinset_const _ ((finalState species).cluster_map.getD 0 0)
        (by intro h; rw [h] at hmaplen; simp at hmaplen; omega) hall]
      exact Finset.card_singleton _
    rw [hcard, hN] at hsum
    omega

/-! ## Concrete inputs for witnesses and counterexamples -/

/-- Two species with empty genomes: a single edge of similarity 0. -/
def twoSpecies : List Species := [⟨"x", []⟩, ⟨"y", []⟩]

/-- Three species whose pair (0,1) aligns with score 4 and whose cross pairs
align with score -3: the driver merges species 0 and 1 first (cluster id 3),
then merges that node with species 2 (cluster id 4). -/
def threeSpecies : List Species :=
  [⟨"x", [AminoAcid.Alanine]⟩, ⟨"y", [AminoAcid.Alanine]⟩,
   ⟨"z", [AminoAcid.Tryptophan]⟩]

/-! ## Claim theorems for the driver -/

set_option maxRecDepth 10000 in
/-- C1, counterexample: on `threeSpecies` the driver returns a root of
similarity -3 whose internal child has similarity 4, so similarities are NOT
non-increasing along the root-to-leaf path, contrary to the claim as stated. -/
theorem claim_C1_counterexample :
    cluster threeSpecies
      = some (Cluster.node (Cluster.node (Cluster.leaf "x") (Cluster.leaf "y") 4)
          (Cluster.leaf "z") (-3)) ∧
    ¬ monoTowardLeaves (Cluster.node (Cluster.node (Cluster.leaf "x") (Cluster.leaf "y") 4)
          (Cluster.leaf "z") (-3 : Int)) := by
  exact ⟨rfl, by decide⟩

/-- C1 (amended): for every input with at least two species, along every
root-to-leaf path of the returned tree the similarities are non-DEcreasing:
every internal node's similarity is at most the similarity of each of its
internal children (Kruskal merges largest similarity first, so the deepest
nodes carry the largest scores and the root the smallest). -/
theorem claim_C1_path_monotone (species : List Species) (t : Cluster String)
    (h2 : 2 ≤ species.length) (hc : cluster species = some t) : monoTowardRoot t := by
  obtain ⟨t2, ht2, _, hmono, _⟩ := cluster_result species (by omega)
  rw [hc] at ht2
  injection ht2 with h
  rw [h]
  exact hmono

set_option maxRecDepth 10000 in
/-- Witness for the amended C1 at a concrete input. -/
theorem claim_C1_path_monotone_witness :
    2 ≤ twoSpecies.length ∧
    monoTowardRoot (Cluster.node (Cluster.leaf "x") (Cluster.leaf "y") (0 : Int)) :=
  ⟨by decide, claim_C1_path_monotone twoSpecies _ (by decide) rfl⟩

/-- C2: for `N ≥ 1` species the returned tree has exactly `N` leaves and
`N - 1` internal nodes; the manager's clusters vector never exceeds `2N - 1`
entries along the run and holds exactly `2N - 1` entries at completion. -/
theorem claim_C2_counts (species : List Species) (h1 : 1 ≤ species.length) :
    (∃ t, cluster species = some t ∧
      (leafList t).length = species.length ∧
      nodeCount t = species.length - 1) ∧
    (∀ l1 l2, sortEdgesDesc (compute_edges (species.map Species.genome)) = l1 ++ l2 →
      (l1.foldl clusterStep
        (ClusterManager.new (create_initial_clusters
          (species.map Species.name)))).clusters.length ≤ 2 * species.length - 1) ∧
    (finalState species).clusters.length = 2 * species.length - 1 := by
  obtain ⟨t, ht, hperm, _, hlen⟩ := cluster_result species h1
  refine ⟨⟨t, ht, ?_, ?_⟩, ?_, hlen⟩
  · rw [hperm.length_eq, List.length_map]
  · have hcount := nodeCount_add_one t
    have hl : (leafList t).length = species.length := by
      rw [hperm.length_eq, List.length_map]
    omega
  · intro l1 l2 hsplit
    have hGS := foldl_clusterStep_GS (species.map Species.name) l1 l2
      (ClusterManager.new (create_initial_clusters (species.map Species.name)))
      (goodState_init _ _)
      (by rw [← hsplit]; exact sortEdgesDesc_sorted _)
      (fun e he => by
        have hmem : e ∈ sortEdgesDesc (compute_edges (species.map Species.genome)) := by
          rw [hsplit]
          exact List.mem_append_left l2 he
        have := cluster_edges_ok species e hmem
        rw [List.length_map]
        exact ⟨this.1, this.2.1⟩)
    have hsum := hGS.hsum
    have hmaplen := hGS.hmaplen
    rw [List.length_map] at hsum hmaplen
    have hne : (l1.foldl clusterStep
        (ClusterManager.new (create_initial_clusters
          (species.map Species.name)))).cluster_map ≠ [] := by
      intro h
      rw [h] at hmaplen
      simp at hmaplen
      omega
    have hcard : 1 ≤ (l1.foldl clusterStep
        (ClusterManager.new (create_initial_clusters
          (species.map Species.name)))).cluster_map.toFinset.card :=
      Finset.card_pos.mpr ((List.toFinset_nonempty_iff _).mpr hne)
    omega

set_option maxRecDepth 10000 in
/-- Witness for C2 at a concrete input. -/
theorem claim_C2_counts_witness :
    1 ≤ twoSpecies.length ∧
    ((∃ t, cluster twoSpecies = some t ∧
      (leafList t).length = twoSpecies.length ∧
      nodeCount t = twoSpecies.length - 1) ∧
    (∀ l1 l2, sortEdgesDesc (compute_edges (twoSpecies.map Species.genome)) = l1 ++ l2 →
      (l1.foldl clusterStep
        (ClusterManager.new (create_initial_clusters
          (twoSpecies.map Species.name)))).clusters.length ≤ 2 * twoSpecies.length - 1) ∧
    (finalState twoSpecies).clusters.length = 2 * twoSpecies.length - 1) :=
  ⟨by decide, claim_C2_counts twoSpecies (by decide)⟩

/-- C3: the multiset of leaf labels of any returned tree equals the multiset
of input names (duplicate names give duplicate leaves). -/
theorem claim_C3_leaf_multiset (species : List Species) (t : Cluster String)
    (hc : cluster species = some t) :
    (leafList t).Perm (species.map Species.name) := by
  rcases Nat.eq_zero_or_pos species.length with h0 | h1
  · have hnil : species = [] := List.length_eq_zero.mp h0
    subst hnil
    have : cluster [] = none := rfl
    rw [this] at hc
    cases hc
  · obtain ⟨t2, ht2, hperm, _, _⟩ := cluster_result species h1
    rw [hc] at ht2
    injection ht2 with h
    rw [h]
    exact hperm

set_option maxRecDepth 10000 in
/-- Witness for C3 at a concrete input. -/
theorem claim_C3_leaf_multiset_witness :
    cluster twoSpecies = some (Cluster.node (Cluster.leaf "x") (Cluster.leaf "y") 0) ∧
    (leafList (Cluster.node (Cluster.leaf "x") (Cluster.leaf "y") (0 : Int))).Perm
      (twoSpecies.map Species.name) :=
  ⟨rfl, claim_C3_leaf_multiset twoSpecies _ rfl⟩

/-- C4: `cluster` returns `none` iff the input is empty, a bare leaf with the
species' name for a singleton input, and a `node` root for two or more
species. -/
theorem claim_C4_result_shape (species : List Species) :
    (cluster species = none ↔ species = []) ∧
    (∀ s, species = [s] → cluster species = some (Cluster.leaf s.name)) ∧
    (2 ≤ species.length → ∃ l r sim, cluster species = some (Cluster.node l r sim)) := by
  refine ⟨⟨?_, ?_⟩, ?_, ?_⟩
  · intro hnone
    by_contra hne
    have h1 : 1 ≤ species.length := by
      cases species with
      | nil => exact absurd rfl hne
      | cons s t => simp
    obtain ⟨t, ht, _⟩ := cluster_result species h1
    rw [hnone] at ht
    cases ht
  · rintro rfl
    rfl
  · rintro s rfl
    rfl
  · intro h2
    obtain ⟨t, ht, hperm, _, _⟩ := cluster_result species (by omega)
    cases t with
    | leaf x =>
      exfalso
      have := hperm.length_eq
      rw [List.length_map] at this
      simp [leafList] at this
      omega
    | node l r sim => exact ⟨l, r, sim, ht⟩

set_option maxRecDepth 10000 in
/-- Witness for C4 at concrete inputs covering all three shapes. -/
theorem claim_C4_result_shape_witness :
    cluster ([] : List Species) = none ∧
    cluster [(⟨"s", []⟩ : Species)] = some (Cluster.leaf "s") ∧
    (2 ≤ twoSpecies.length ∧
      ∃ l r sim, cluster twoSpecies = some (Cluster.node l r sim)) :=
  ⟨(claim_C4_result_shape []).1.mpr rfl,
   (claim_C4_result_shape [⟨"s", []⟩]).2.1 ⟨"s", []⟩ rfl,
   by decide,
   (claim_C4_result_shape twoSpecies).2.2 (by decide)⟩

set_option maxRecDepth 10000 in
/-- C5, counterexample: on `threeSpecies`, after the merge that put species 0
and 2 into one component (their current clusters agree), `find` applied to
the raw species indices still differs: the driver unions cluster ids, never
the original species indices, so `find(0) = 0` while `find(2) = 3`. -/
theorem claim_C5_counterexample :
    ((finalState threeSpecies).get 0).1 = ((finalState threeSpecies).get 2).1 ∧
    (ufFind (finalState threeSpecies).uf 0).1 ≠ (ufFind (finalState threeSpecies).uf 2).1 := by
  exact ⟨by decide, by decide⟩

/-- The manager state after the driver has processed the edges of `l1`. -/
def driverState (species : List Species) (l1 : List Edge) : ClusterManager String :=
  l1.foldl clusterStep (ClusterManager.new (create_initial_clusters (species.map Species.name)))

/-- On an invariant-satisfying state, `get` returns the species' current
`cluster_map` entry (the entry is a union-find root, so `find` is the
identity on it). -/
theorem get_fst_eq {T : Type} [Inhabited T] (names : List T) (rem : List Edge)
    (m : ClusterManager T) (hGS : GoodState names rem m) (x : Nat) (hx : x < names.length) :
    (m.get x).1 = m.cluster_map.getD x 0 := by
  unfold ClusterManager.get
  rw [ufFind_root _ _ (hGS.hroot _ (getD_mem_of_lt _ _ _ (by rw [hGS.hmaplen]; exact hx)))]

/-- The invariant holds at every driver step boundary. -/
theorem driverState_GS (species : List Species) (l1 l2 : List Edge)
    (hsplit : sortEdgesDesc (compute_edges (species.map Species.genome)) = l1 ++ l2) :
    GoodState (species.map Species.name) l2 (driverState species l1) := by
  exact foldl_clusterStep_GS (species.map Species.name) l1 l2
    (ClusterManager.new (create_initial_clusters (species.map Species.name)))
    (goodState_init _ _)
    (by rw [← hsplit]; exact sortEdgesDesc_sorted _)
    (fun e he => by
      have hmem : e ∈ sortEdgesDesc (compute_edges (species.map Species.genome)) := by
        rw [hsplit]
        exact List.mem_append_left l2 he
      have := cluster_edges_ok species e hmem
      rw [List.length_map]
      exact ⟨this.1, this.2.1⟩)

/-- C5 (amended): after any successful merge performed by the driver — a step
whose two current clusters `get(a)` and `get(b)` differ — the manager's
current-cluster query agrees on every two species that were in the merged
clusters.  (The disjoint-set query the program performs for a species is
`find(cluster_map[s])`; the raw `find(s)` of the claim as stated differs, see
the counterexample.) -/
theorem claim_C5_merged_get_agree (species : List Species) (l1 : List Edge) (e : Edge)
    (l2 : List Edge)
    (hsplit : sortEdgesDesc (compute_edges (species.map Species.genome)) = l1 ++ e :: l2)
    (i j : Nat) (hi : i < species.length) (hj : j < species.length)
    (hmerge : ((driverState species l1).get e.species_a).1
      ≠ ((driverState species l1).get e.species_b).1)
    (hmi : ((driverState species l1).get i).1 = ((driverState species l1).get e.species_a).1 ∨
      ((driverState species l1).get i).1 = ((driverState species l1).get e.species_b).1)
    (hmj : ((driverState species l1).get j).1 = ((driverState species l1).get e.species_a).1 ∨
      ((driverState species l1).get j).1 = ((driverState species l1).get e.species_b).1) :
    ((clusterStep (driverState species l1) e).get i).1
      = ((clusterStep (driverState species l1) e).get j).1 := by
  have hGS := driverState_GS species l1 (e :: l2) hsplit
  have hmemE : e ∈ sortEdgesDesc (compute_edges (species.map Species.genome)) := by
    rw [hsplit]
    exact List.mem_append_right l1 (List.mem_cons_self e l2)
  obtain ⟨haN, hbN, hneab⟩ := cluster_edges_ok species e hmemE
  have hN : (species.map Species.name).length = species.length := List.length_map _ _
  have hsorted : ∀ e2 ∈ l2, e2.similarity ≤ e.similarity := by
    have hs := sortEdgesDesc_sorted (compute_edges (species.map Species.genome))
    rw [hsplit] at hs
    exact (List.pairwise_cons.mp (List.pairwise_append.mp hs).2.1).1
  have hGS2 := (clusterStep_preserves (species.map Species.name) e l2
    (driverState species l1) hGS (by omega) (by omega) hsorted).1
  have hgeta := get_fst_eq _ _ _ hGS e.species_a (by omega)
  have hgetb := get_fst_eq _ _ _ hGS e.species_b (by omega)
  have hgeti := get_fst_eq _ _ _ hGS i (by omega)
  have hgetj := get_fst_eq _ _ _ hGS j (by omega)
  rw [hgeta, hgetb] at hmerge
  rw [hgeti, hgeta, hgetb] at hmi
  rw [hgetj, hgeta, hgetb] at hmj
  rw [get_fst_eq _ _ _ hGS2 i (by omega), get_fst_eq _ _ _ hGS2 j (by omega)]
  have hcl : (driverState species l1).clusters.length < (driverState species l1).uf.length := by
    have h1 := hGS.hsum
    have h2 := hGS.huf
    have hmem0 : (driverState species l1).cluster_map.getD e.species_a 0
        ∈ (driverState species l1).cluster_map :=
      getD_mem_of_lt _ _ _ (by rw [hGS.hmaplen]; omega)
    have hcard : 1 ≤ (driverState species l1).cluster_map.toFinset.card :=
      Finset.card_pos.mpr ⟨_, List.mem_toFinset.mpr hmem0⟩
    omega
  obtain ⟨_, hchar2⟩ := clusterStep_char (driverState species l1) e
    (by rw [hGS.hmaplen]; omega) (by rw [hGS.hmaplen]; omega) hGS.hroot hGS.hlt hcl
  obtain ⟨big, small, hset, hcmp, hstep⟩ := hchar2 hmerge
  rw [hstep]
  dsimp only
  rw [getD_map_of_lt _ _ _ _ 0 (by rw [hGS.hmaplen]; omega),
      getD_map_of_lt _ _ _ _ 0 (by rw [hGS.hmaplen]; omega)]
  rw [if_pos hmi, if_pos hmj]

set_option maxRecDepth 10000 in
/-- Witness for the amended C5 at a concrete input: on `twoSpecies` the only
edge merges clusters 0 and 1, and afterwards both species report the same
current cluster. -/
theorem claim_C5_merged_get_agree_witness :
    (sortEdgesDesc (compute_edges (twoSpecies.map Species.genome))
       = [] ++ (⟨0, 1, 0⟩ : Edge) :: []) ∧
    ((driverState twoSpecies []).get 0).1 ≠ ((driverState twoSpecies []).get 1).1 ∧
    ((clusterStep (driverState twoSpecies []) (⟨0, 1, 0⟩ : Edge)).get 0).1
      = ((clusterStep (driverState twoSpecies []) (⟨0, 1, 0⟩ : Edge)).get 1).1 :=
  ⟨rfl, by decide,
    claim_C5_merged_get_agree twoSpecies [] ⟨0, 1, 0⟩ [] rfl 0 1 (by decide) (by decide)
      (by decide) (Or.inl rfl) (Or.inr rfl)⟩

/-- C10: along the whole run the union-find keeps its allocated capacity
`2N`, at most `N - 1` clusters are appended (the vector never exceeds
`2N - 1`), and every cluster id obtained from `get` — which is always the
species' current `cluster_map` entry — indexes within both the clusters
vector and the parent array, so no access of the driver is out of bounds. -/
theorem claim_C10_no_oob (species : List Species) (h1 : 1 ≤ species.length)
    (l1 l2 : List Edge)
    (hsplit : sortEdgesDesc (compute_edges (species.map Species.genome)) = l1 ++ l2) :
    (driverState species l1).uf.length = 2 * species.length ∧
    (driverState species l1).clusters.length ≤ 2 * species.length - 1 ∧
    (∀ s, s < species.length →
      ((driverState species l1).get s).1 = (driverState species l1).cluster_map.getD s 0 ∧
      (driverState species l1).cluster_map.getD s 0 < (driverState species l1).clusters.length ∧
      (driverState species l1).cluster_map.getD s 0 < (driverState species l1).uf.length) := by
  have hGS := driverState_GS species l1 l2 hsplit
  have hN : (species.map Species.name).length = species.length := List.length_map _ _
  have hmaplen := hGS.hmaplen
  have hsum := hGS.hsum
  have huf := hGS.huf
  rw [hN] at hmaplen hsum huf
  have hne : (driverState species l1).cluster_map ≠ [] := by
    intro h
    rw [h] at hmaplen
    simp at hmaplen
    omega
  have hcard : 1 ≤ (driverState species l1).cluster_map.toFinset.card :=
    Finset.card_pos.mpr ((List.toFinset_nonempty_iff _).mpr hne)
  refine ⟨huf, by omega, ?_⟩
  intro s hs
  have hmem : (driverState species l1).cluster_map.getD s 0
      ∈ (driverState species l1).cluster_map :=
    getD_mem_of_lt _ _ _ (by omega)
  have hlt := hGS.hlt _ hmem
  refine ⟨get_fst_eq _ _ _ hGS s (by omega), hlt, by omega⟩

/-! ## Union-find in isolation: the size/validity invariant of spec §4.D

`Chain p i r k` is a parent chain of `k` steps from `i` to the root `r` in
the parent vector `p`; `RootedAt p i r` says such a chain exists.  The set of
a root is the set of elements rooted at it, and its size is that set's
cardinality. -/

/-- A parent chain of length `k` from `i` to the root `r` in `p`. -/
inductive Chain (p : List Int) : Nat → Nat → Nat → Prop where
  | root (i : Nat) (h : i < p.length) (hneg : p.getD i 0 < 0) : Chain p i i 0
  | step (i r k : Nat) (h : i < p.length) (hpos : 0 ≤ p.getD i 0)
      (hc : Chain p (p.getD i 0).toNat r k) : Chain p i r (k + 1)

/-- `i`'s parent chain reaches the root `r`. -/
def RootedAt (p : List Int) (i r : Nat) : Prop := ∃ k, Chain p i r k

theorem Chain.start_lt {p : List Int} {i r k : Nat} (h : Chain p i r k) : i < p.length := by
  cases h with
  | root _ h _ => exact h
  | step _ _ _ h _ _ => exact h

theorem Chain.root_prop {p : List Int} {i r k : Nat} (h : Chain p i r k) :
    r < p.length ∧ p.getD r 0 < 0 := by
  induction h with
  | root i h hneg => exact ⟨h, hneg⟩
  | step i r k h hpos hc ih => exact ih

theorem Chain.root_unique {p : List Int} {i r k r2 k2 : Nat} (h1 : Chain p i r k)
    (h2 : Chain p i r2 k2) : r = r2 := by
  induction h1 generalizing k2 with
  | root i h hneg =>
    cases h2 with
    | root => rfl
    | step _ _ _ _ hpos _ => omega
  | step i r k h hpos hc ih =>
    cases h2 with
    | root _ _ hneg => omega
    | step _ _ _ _ _ hc2 => exact ih hc2

theorem rootedAt_unique {p : List Int} {i r r2 : Nat} (h1 : RootedAt p i r)
    (h2 : RootedAt p i r2) : r = r2 := by
  obtain ⟨k, hk⟩ := h1
  obtain ⟨k2, hk2⟩ := h2
  exact hk.root_unique hk2

theorem rootedAt_self {p : List Int} {r : Nat} (h : r < p.length) (hneg : p.getD r 0 < 0) :
    RootedAt p r r := ⟨0, Chain.root r h hneg⟩

theorem rootedAt_of_root {p : List Int} {r r2 : Nat} (hneg : p.getD r 0 < 0)
    (h : RootedAt p r r2) : r2 = r := by
  obtain ⟨k, hk⟩ := h
  cases hk with
  | root => rfl
  | step _ _ _ _ hpos _ => omega

theorem rooted_valid {p : List Int} {z r : Nat} (h : RootedAt p z r)
    (hpos : 0 ≤ p.getD z 0) : (p.getD z 0).toNat < p.length := by
  obtain ⟨k, hk⟩ := h
  cases hk with
  | root _ _ hneg => omega
  | step _ _ _ _ _ hc => exact hc.start_lt

theorem rootedSet_finite (p : List Int) (r : Nat) : {i | RootedAt p i r}.Finite :=
  Set.Finite.subset (Set.finite_Iio p.length)
    (fun i hi => by
      obtain ⟨k, hk⟩ := hi
      exact hk.start_lt)

theorem ncard_Iio_nat (n : Nat) : (Set.Iio n).ncard = n := by
  rw [← Finset.coe_Iio, Set.ncard_coe_Finset, Nat.card_Iio]

theorem ncard_rooted_le (p : List Int) (r : Nat) :
    Set.ncard {i | RootedAt p i r} ≤ p.length := by
  have hsub : {i | RootedAt p i r} ⊆ Set.Iio p.length := fun i hi => by
    obtain ⟨k, hk⟩ := hi
    exact hk.start_lt
  calc Set.ncard {i | RootedAt p i r} ≤ (Set.Iio p.length).ncard :=
        Set.ncard_le_ncard hsub (Set.finite_Iio _)
    _ = p.length := ncard_Iio_nat _

/-- The union-find invariant of spec §4.D: every non-root entry is a valid
index, every element reaches a root, a root's entry is the negation of its
set size, and every element's chain is shorter than its set size (the
acyclicity/termination well-formedness the Rust recursion relies on). -/
def Inv (p : List Int) : Prop :=
  (∀ i, i < p.length → p.getD i 0 < 0 ∨ (p.getD i 0).toNat < p.length) ∧
  (∀ i, i < p.length → ∃ r, RootedAt p i r) ∧
  (∀ r, r < p.length → p.getD r 0 < 0 →
    p.getD r 0 = -(Set.ncard {i | RootedAt p i r} : Int)) ∧
  (∀ i r, RootedAt p i r → ∃ k, Chain p i r k ∧ k < Set.ncard {i2 | RootedAt p i2 r})

/-- Pointing a non-root `x` directly at its root never lengthens chains. -/
theorem chain_set_forward (q1 : List Int) (x r : Nat)
    (hx : x < q1.length) (hxpos : 0 ≤ q1.getD x 0)
    (hroot : RootedAt q1 x r) (hrneg : q1.getD r 0 < 0) :
    ∀ i2 r2 k2, Chain q1 i2 r2 k2 →
      ∃ k3, k3 ≤ k2 ∧ Chain (q1.set x (r : Int)) i2 r2 k3 := by
  intro i2 r2 k2 hc
  induction hc with
  | root i h hneg =>
    have hix : i ≠ x := by
      intro he
      rw [he] at hneg
      omega
    exact ⟨0, le_rfl, Chain.root i (by simpa using h)
      (by rw [getD_set_ne _ _ _ _ (Ne.symm hix)]; exact hneg)⟩
  | step i rr k h hpos hc ih =>
    by_cases hix : i = x
    · subst hix
      have hrr : rr = r := rootedAt_unique ⟨k + 1, Chain.step i rr k h hpos hc⟩ hroot
      subst hrr
      have hrx : rr ≠ i := by
        intro he
        rw [← he] at hpos
        omega
      have hq1x : (q1.set i (rr : Int)).getD i 0 = (rr : Int) := getD_set_self _ _ _ hx
      refine ⟨1, by omega, Chain.step i rr 0 (by simpa using h) (by rw [hq1x]; omega) ?_⟩
      rw [hq1x]
      simp only [Int.toNat_natCast]
      refine Chain.root rr (by simpa using (hc.root_prop).1) ?_
      rw [getD_set_ne _ _ _ _ (Ne.symm hrx)]
      exact hrneg
    · obtain ⟨k3, hk3, hc3⟩ := ih
      refine ⟨k3 + 1, by omega, Chain.step i rr k3 (by simpa using h) ?_ ?_⟩
      · rw [getD_set_ne _ _ _ _ (Ne.symm hix)]
        exact hpos
      · rw [getD_set_ne _ _ _ _ (Ne.symm hix)]
        exact hc3

/-- Conversely, chains after the compression write existed before it. -/
theorem chain_set_backward (q1 : List Int) (x r : Nat)
    (hx : x < q1.length) (hxpos : 0 ≤ q1.getD x 0)
    (hroot : RootedAt q1 x r) (hrneg : q1.getD r 0 < 0) :
    ∀ i2 r2 k2, Chain (q1.set x (r : Int)) i2 r2 k2 → RootedAt q1 i2 r2 := by
  have hrx : r ≠ x := by
    intro he
    rw [he] at hrneg
    omega
  intro i2 r2 k2 hc
  induction hc with
  | root i h hneg =>
    have hix : i ≠ x := by
      intro he
      subst he
      rw [getD_set_self _ _ _ hx] at hneg
      omega
    rw [getD_set_ne _ _ _ _ (Ne.symm hix)] at hneg
    exact rootedAt_self (by simpa using h) hneg
  | step i rr k h hpos hc ih =>
    by_cases hix : i = x
    · subst hix
      have hq1x : (q1.set i (r : Int)).getD i 0 = (r : Int) := getD_set_self _ _ _ hx
      rw [hq1x] at hc
      simp only [Int.toNat_natCast] at hc
      have hrroot : (q1.set i (r : Int)).getD r 0 < 0 := by
        rw [getD_set_ne _ _ _ _ (Ne.symm hrx)]
        exact hrneg
      have hrr : rr = r := rootedAt_of_root hrroot ⟨k, hc⟩
      subst hrr
      exact hroot
    · rw [getD_set_ne _ _ _ _ (Ne.symm hix)] at hpos ih
      obtain ⟨k4, hk4⟩ := ih
      exact ⟨k4 + 1, Chain.step i rr k4 (by simpa using h) hpos hk4⟩

/-- Full specification of `findAux`: with enough fuel it returns the chain's
root and performs only path compression, preserving lengths, root entries,
the rooting relation, and never lengthening chains. -/
theorem findAux_spec (p : List Int) :
    ∀ (fuel k x r : Nat), Chain p x r k → k < fuel →
    ∃ q, findAux fuel p x = (r, q) ∧
      q.length = p.length ∧
      (∀ z, q.getD z 0 < 0 → q.getD z 0 = p.getD z 0) ∧
      (∀ z, q.getD z 0 < 0 ↔ p.getD z 0 < 0) ∧
      (∀ i2 r2 k2, Chain p i2 r2 k2 → ∃ k3, k3 ≤ k2 ∧ Chain q i2 r2 k3) ∧
      (∀ i2 r2, RootedAt q i2 r2 → RootedAt p i2 r2) := by
  intro fuel
  induction fuel with
  | zero =>
    intro k x r hc hk
    omega
  | succ f ih =>
    intro k x r hc hk
    by_cases hv : p.getD x 0 < 0
    · have hxr : r = x := by
        cases hc with
        | root => rfl
        | step _ _ _ _ hpos _ => omega
      subst hxr
      refine ⟨p, ?_, rfl, fun z _ => rfl, fun z => Iff.rfl,
        fun i2 r2 k2 hc2 => ⟨k2, le_rfl, hc2⟩, fun i2 r2 h => h⟩
      simp only [findAux]
      rw [if_pos hv]
    · cases hc with
      | root _ _ hneg => omega
      | step _ _ k2 h hpos hc2 =>
        obtain ⟨q1, heq1, hlen1, hval1, hiff1, hshort1, hback1⟩ :=
          ih k2 (p.getD x 0).toNat r hc2 (by omega)
        have hx1 : x < q1.length := by rw [hlen1]; exact h
        have hrooted1 : RootedAt q1 x r := by
          obtain ⟨k3, _, hk3⟩ := hshort1 x r (k2 + 1) (Chain.step x r k2 h hpos hc2)
          exact ⟨k3, hk3⟩
        have hrneg1 : q1.getD r 0 < 0 := (hiff1 r).mpr hc2.root_prop.2
        have hq1xpos : ¬ q1.getD x 0 < 0 := fun hq => hv ((hiff1 x).mp hq)
        refine ⟨q1.set x ((r : Nat) : Int), ?_, ?_, ?_, ?_, ?_, ?_⟩
        · simp only [findAux]
          rw [if_neg hv, heq1]
        · rw [List.length_set, hlen1]
        · intro z hz
          have hzx : z ≠ x := by
            intro he
            subst he
            rw [getD_set_self _ _ _ hx1] at hz
            omega
          rw [getD_set_ne _ _ _ _ (Ne.symm hzx)] at hz ⊢
          exact hval1 z hz
        · intro z
          by_cases hzx : z = x
          · subst hzx
            rw [getD_set_self _ _ _ hx1]
            constructor
            · intro hcon
              omega
            · intro hcon
              exact absurd hcon hv
          · rw [getD_set_ne _ _ _ _ (Ne.symm hzx)]
            exact hiff1 z
        · intro i2 r2 kk hc3
          obtain ⟨k3, hk3le, hk3⟩ := hshort1 i2 r2 kk hc3
          obtain ⟨k4, hk4le, hk4⟩ := chain_set_forward q1 x r hx1 (by omega) hrooted1 hrneg1 i2 r2 k3 hk3
          exact ⟨k4, by omega, hk4⟩
        · intro i2 r2 hr2
          obtain ⟨kk, hkk⟩ := hr2
          exact hback1 i2 r2 (chain_set_backward q1 x r hx1 (by omega) hrooted1 hrneg1 i2 r2 kk hkk)

/-- Full specification of `find` on an invariant-satisfying state. -/
theorem ufFind_spec (p : List Int) (x : Nat) (hInv : Inv p) (hx : x < p.length) :
    ∃ r q, ufFind p x = (r, q) ∧ RootedAt p x r ∧
      q.length = p.length ∧
      (∀ z, q.getD z 0 < 0 → q.getD z 0 = p.getD z 0) ∧
      (∀ z, q.getD z 0 < 0 ↔ p.getD z 0 < 0) ∧
      (∀ i2 r2, RootedAt q i2 r2 ↔ RootedAt p i2 r2) ∧
      (∀ r2, Set.ncard {i | RootedAt q i r2} = Set.ncard {i | RootedAt p i r2}) ∧
      Inv q := by
  obtain ⟨hV, hR, hS, hD⟩ := hInv
  obtain ⟨r, hr⟩ := hR x hx
  obtain ⟨k, hk, hksize⟩ := hD x r hr
  have hkfuel : k < p.length := lt_of_lt_of_le hksize (ncard_rooted_le p r)
  obtain ⟨q, heq, hlen, hval, hiff, hshort, hback⟩ := findAux_spec p p.length k x r hk hkfuel
  have hiff2 : ∀ i2 r2, RootedAt q i2 r2 ↔ RootedAt p i2 r2 := by
    intro i2 r2
    constructor
    · exact hback i2 r2
    · rintro ⟨kk, hkk⟩
      obtain ⟨k3, _, hk3⟩ := hshort i2 r2 kk hkk
      exact ⟨k3, hk3⟩
  have hsets : ∀ r2, {i | RootedAt q i r2} = {i | RootedAt p i r2} :=
    fun r2 => Set.ext (fun i => hiff2 i r2)
  refine ⟨r, q, heq, hr, hlen, hval, hiff, hiff2, fun r2 => by rw [hsets r2], ?_, ?_, ?_, ?_⟩
  · intro i hi
    rw [hlen] at hi
    by_cases hneg : q.getD i 0 < 0
    · exact Or.inl hneg
    · obtain ⟨r2, hr2⟩ := hR i hi
      have hq2 : RootedAt q i r2 := (hiff2 i r2).mpr hr2
      exact Or.inr (rooted_valid hq2 (by omega))
  · intro i hi
    rw [hlen] at hi
    obtain ⟨r2, hr2⟩ := hR i hi
    exact ⟨r2, (hiff2 i r2).mpr hr2⟩
  · intro r2 hr2 hneg
    rw [hlen] at hr2
    rw [hval r2 hneg, hsets r2]
    exact hS r2 hr2 ((hiff r2).mp hneg)
  · intro i2 r2 hr2
    have hp2 : RootedAt p i2 r2 := (hiff2 i2 r2).mp hr2
    obtain ⟨kk, hkk, hkksize⟩ := hD i2 r2 hp2
    obtain ⟨k3, hk3le, hk3⟩ := hshort i2 r2 kk hkk
    refine ⟨k3, hk3, ?_⟩
    rw [hsets r2]
    omega

/-- After attaching root `small` under root `big`, chains reroute: chains to
`small` become chains to `big` (at most one step longer), all others are
unchanged. -/
theorem chain_union_forward (q : List Int) (big small : Nat)
    (hbig : big < q.length) (hsmall : small < q.length) (hbs : big ≠ small)
    (hnb : q.getD big 0 < 0) (hns : q.getD small 0 < 0) :
    ∀ i2 r2 k2, Chain q i2 r2 k2 →
      (r2 = small → ∃ k3, k3 ≤ k2 + 1 ∧ Chain (unionResult q big small) i2 big k3) ∧
      (r2 ≠ small → ∃ k3, k3 ≤ k2 ∧ Chain (unionResult q big small) i2 r2 k3) := by
  have hulen : (unionResult q big small).length = q.length := unionResult_length q big small
  have husmall : (unionResult q big small).getD small 0 = (big : Int) :=
    unionResult_getD_small q big small hsmall
  have hubig : (unionResult q big small).getD big 0 = q.getD big 0 + q.getD small 0 :=
    unionResult_getD_big q big small hbs hbig
  intro i2 r2 k2 hc
  induction hc with
  | root i h hneg =>
    constructor
    · rintro rfl
      refine ⟨1, by omega, Chain.step i big 0 (by omega) (by rw [husmall]; omega) ?_⟩
      rw [husmall]
      simp only [Int.toNat_natCast]
      refine Chain.root big (by omega) ?_
      rw [hubig]
      omega
    · intro hne2
      by_cases hib : i = big
      · subst hib
        refine ⟨0, le_rfl, Chain.root i (by omega) ?_⟩
        rw [hubig]
        omega
      · refine ⟨0, le_rfl, Chain.root i (by omega) ?_⟩
        rw [unionResult_getD_other q big small i hib hne2]
        exact hneg
  | step i rr k h hpos hc ih =>
    have hib : i ≠ big := by
      intro he
      rw [he] at hpos
      omega
    have his : i ≠ small := by
      intro he
      rw [he] at hpos
      omega
    have hui : (unionResult q big small).getD i 0 = q.getD i 0 :=
      unionResult_getD_other q big small i hib his
    constructor
    · rintro rfl
      obtain ⟨k3, hk3le, hk3⟩ := ih.1 rfl
      refine ⟨k3 + 1, by omega, Chain.step i big k3 (by omega) (by rw [hui]; exact hpos) ?_⟩
      rw [hui]
      exact hk3
    · intro hne2
      obtain ⟨k3, hk3le, hk3⟩ := ih.2 hne2
      refine ⟨k3 + 1, by omega, Chain.step i rr k3 (by omega) (by rw [hui]; exact hpos) ?_⟩
      rw [hui]
      exact hk3

/-- Conversely, every chain after the union comes from one before it. -/
theorem chain_union_backward (q : List Int) (big small : Nat)
    (hbig : big < q.length) (hsmall : small < q.length) (hbs : big ≠ small)
    (hnb : q.getD big 0 < 0) (hns : q.getD small 0 < 0) :
    ∀ i2 r2 k2, Chain (unionResult q big small) i2 r2 k2 →
      (r2 = big ∧ (RootedAt q i2 big ∨ RootedAt q i2 small)) ∨
      (r2 ≠ big ∧ r2 ≠ small ∧ RootedAt q i2 r2) := by
  have hulen : (unionResult q big small).length = q.length := unionResult_length q big small
  have husmall : (unionResult q big small).getD small 0 = (big : Int) :=
    unionResult_getD_small q big small hsmall
  have hubig : (unionResult q big small).getD big 0 = q.getD big 0 + q.getD small 0 :=
    unionResult_getD_big q big small hbs hbig
  intro i2 r2 k2 hc
  induction hc with
  | root i h hneg =>
    by_cases hib : i = big
    · subst hib
      exact Or.inl ⟨rfl, Or.inl (rootedAt_self hbig hnb)⟩
    · by_cases his : i = small
      · subst his
        rw [husmall] at hneg
        omega
      · rw [unionResult_getD_other q big small i hib his] at hneg
        exact Or.inr ⟨hib, his, rootedAt_self (by omega) hneg⟩
  | step i rr k h hpos hc ih =>
    have hib : i ≠ big := by
      intro he
      rw [he, hubig] at hpos
      omega
    by_cases his : i = small
    · rw [his, husmall] at hc
      simp only [Int.toNat_natCast] at hc
      have hbroot : (unionResult q big small).getD big 0 < 0 := by
        rw [hubig]
        omega
      have hrr : rr = big := rootedAt_of_root hbroot ⟨k, hc⟩
      rw [his]
      exact Or.inl ⟨hrr, Or.inr (rootedAt_self hsmall hns)⟩
    · have hui : (unionResult q big small).getD i 0 = q.getD i 0 :=
        unionResult_getD_other q big small i hib his
      rw [hui] at hpos
      rw [hui] at ih
      rcases ih with ⟨hrr, hr | hr⟩ | ⟨hr1, hr2, hr⟩
      · obtain ⟨k4, hk4⟩ := hr
        exact Or.inl ⟨hrr, Or.inl ⟨k4 + 1, Chain.step i big k4 (by omega) hpos hk4⟩⟩
      · obtain ⟨k4, hk4⟩ := hr
        exact Or.inl ⟨hrr, Or.inr ⟨k4 + 1, Chain.step i small k4 (by omega) hpos hk4⟩⟩
      · obtain ⟨k4, hk4⟩ := hr
        exact Or.inr ⟨hr1, hr2, ⟨k4 + 1, Chain.step i rr k4 (by omega) hpos hk4⟩⟩

/-- Rooting after a union, as an equivalence. -/
theorem union_rooted_iff (q : List Int) (big small : Nat)
    (hbig : big < q.length) (hsmall : small < q.length) (hbs : big ≠ small)
    (hnb : q.getD big 0 < 0) (hns : q.getD small 0 < 0) (i2 r2 : Nat) :
    RootedAt (unionResult q big small) i2 r2 ↔
      ((r2 = big ∧ (RootedAt q i2 big ∨ RootedAt q i2 small)) ∨
       (r2 ≠ big ∧ r2 ≠ small ∧ RootedAt q i2 r2)) := by
  constructor
  · rintro ⟨k, hk⟩
    exact chain_union_backward q big small hbig hsmall hbs hnb hns i2 r2 k hk
  · rintro (⟨he, hr | hr⟩ | ⟨hr1, hr2, hr⟩)
    · obtain ⟨k, hk⟩ := hr
      obtain ⟨k3, _, hk3⟩ :=
        (chain_union_forward q big small hbig hsmall hbs hnb hns i2 big k hk).2 hbs
      rw [he]
      exact ⟨k3, hk3⟩
    · obtain ⟨k, hk⟩ := hr
      obtain ⟨k3, _, hk3⟩ :=
        (chain_union_forward q big small hbig hsmall hbs hnb hns i2 small k hk).1 rfl
      rw [he]
      exact ⟨k3, hk3⟩
    · obtain ⟨k, hk⟩ := hr
      obtain ⟨k3, _, hk3⟩ :=
        (chain_union_forward q big small hbig hsmall hbs hnb hns i2 r2 k hk).2 hr2
      exact ⟨k3, hk3⟩

/-- `unionResult` on two distinct roots of an invariant state preserves the
invariant, and the surviving root's set is the disjoint union of the two old
sets. -/
theorem unionResult_Inv (q : List Int) (big small : Nat) (hInv : Inv q)
    (hbig : big < q.length) (hsmall : small < q.length) (hbs : big ≠ small)
    (hnb : q.getD big 0 < 0) (hns : q.getD small 0 < 0) :
    Inv (unionResult q big small) ∧
    Set.ncard {i | RootedAt (unionResult q big small) i big}
      = Set.ncard {i | RootedAt q i big} + Set.ncard {i | RootedAt q i small} := by
  obtain ⟨hV, hR, hS, hD⟩ := hInv
  have hulen : (unionResult q big small).length = q.length := unionResult_length q big small
  have husmall : (unionResult q big small).getD small 0 = (big : Int) :=
    unionResult_getD_small q big small hsmall
  have hubig : (unionResult q big small).getD big 0 = q.getD big 0 + q.getD small 0 :=
    unionResult_getD_big q big small hbs hbig
  have hriff := union_rooted_iff q big small hbig hsmall hbs hnb hns
  have hsetbig : {i | RootedAt (unionResult q big small) i big}
      = {i | RootedAt q i big} ∪ {i | RootedAt q i small} := by
    ext i
    simp only [Set.mem_setOf_eq, Set.mem_union]
    rw [hriff i big]
    constructor
    · rintro (⟨_, h⟩ | ⟨habs, _, _⟩)
      · exact h
      · exact absurd rfl habs
    · intro h
      exact Or.inl ⟨rfl, h⟩
  have hsetother : ∀ r2, r2 ≠ big → r2 ≠ small →
      {i | RootedAt (unionResult q big small) i r2} = {i | RootedAt q i r2} := by
    intro r2 h1 h2
    ext i
    simp only [Set.mem_setOf_eq]
    rw [hriff i r2]
    constructor
    · rintro (⟨he, _⟩ | ⟨_, _, h⟩)
      · exact absurd he h1
      · exact h
    · intro h
      exact Or.inr ⟨h1, h2, h⟩
  have hdisj : Disjoint {i | RootedAt q i big} {i | RootedAt q i small} := by
    rw [Set.disjoint_left]
    intro i h1 h2
    exact hbs (rootedAt_unique h1 h2)
  have hcardbig : Set.ncard {i | RootedAt (unionResult q big small) i big}
      = Set.ncard {i | RootedAt q i big} + Set.ncard {i | RootedAt q i small} := by
    rw [hsetbig]
    exact Set.ncard_union_eq hdisj (rootedSet_finite q big) (rootedSet_finite q small)
  have hposbig : 1 ≤ Set.ncard {i | RootedAt q i big} :=
    (Set.ncard_pos (rootedSet_finite q big)).mpr ⟨big, rootedAt_self hbig hnb⟩
  have hV' : ∀ i, i < (unionResult q big small).length →
      (unionResult q big small).getD i 0 < 0 ∨
      ((unionResult q big small).getD i 0).toNat < (unionResult q big small).length := by
    intro i hi
    by_cases his : i = small
    · right
      rw [his, husmall, Int.toNat_natCast]
      omega
    · by_cases hibig : i = big
      · left
        rw [hibig, hubig]
        omega
      · rw [unionResult_getD_other q big small i hibig his]
        rcases hV i (by omega) with h | h
        · exact Or.inl h
        · exact Or.inr (by omega)
  have hR' : ∀ i, i < (unionResult q big small).length →
      ∃ r, RootedAt (unionResult q big small) i r := by
    intro i hi
    obtain ⟨r, hr⟩ := hR i (by omega)
    by_cases hrs : r = small
    · exact ⟨big, (hriff i big).mpr (Or.inl ⟨rfl, Or.inr (hrs ▸ hr)⟩)⟩
    · by_cases hrb : r = big
      · exact ⟨big, (hriff i big).mpr (Or.inl ⟨rfl, Or.inl (hrb ▸ hr)⟩)⟩
      · exact ⟨r, (hriff i r).mpr (Or.inr ⟨hrb, hrs, hr⟩)⟩
  have hS' : ∀ r, r < (unionResult q big small).length →
      (unionResult q big small).getD r 0 < 0 →
      (unionResult q big small).getD r 0
        = -(Set.ncard {i | RootedAt (unionResult q big small) i r} : Int) := by
    intro r hrlen hrneg
    by_cases hrs : r = small
    · rw [hrs, husmall] at hrneg
      omega
    · by_cases hrb : r = big
      · rw [hrb, hubig, hS big hbig hnb, hS small hsmall hns, hcardbig]
        push_cast
        ring
      · rw [unionResult_getD_other q big small r hrb hrs] at hrneg ⊢
        rw [hsetother r hrb hrs]
        exact hS r (by omega) hrneg
  have hD' : ∀ i r, RootedAt (unionResult q big small) i r →
      ∃ k, Chain (unionResult q big small) i r k ∧
        k < Set.ncard {i2 | RootedAt (unionResult q big small) i2 r} := by
    intro i r hr
    rcases (hriff i r).mp hr with ⟨he, hq | hq⟩ | ⟨h1, h2, hq⟩
    · obtain ⟨k, hc, hk⟩ := hD i big hq
      obtain ⟨k3, hk3le, hk3⟩ :=
        (chain_union_forward q big small hbig hsmall hbs hnb hns i big k hc).2 hbs
      refine ⟨k3, by rw [he]; exact hk3, ?_⟩
      rw [he, hcardbig]
      omega
    · obtain ⟨k, hc, hk⟩ := hD i small hq
      obtain ⟨k3, hk3le, hk3⟩ :=
        (chain_union_forward q big small hbig hsmall hbs hnb hns i small k hc).1 rfl
      refine ⟨k3, by rw [he]; exact hk3, ?_⟩
      rw [he, hcardbig]
      omega
    · obtain ⟨k, hc, hk⟩ := hD i r hq
      obtain ⟨k3, hk3le, hk3⟩ :=
        (chain_union_forward q big small hbig hsmall hbs hnb hns i r k hc).2 h2
      refine ⟨k3, hk3, ?_⟩
      rw [hsetother r h1 h2]
      omega
  exact ⟨⟨hV', hR', hS', hD'⟩, hcardbig⟩

/-- Full contract of `ufUnion` on invariant states: the result is `false` iff
the two roots already coincide; otherwise the root of the smaller set is
attached under the root of the larger set, the larger root's entry absorbs the
smaller root's entry (the negated combined size), and the invariant is
preserved. -/
theorem ufUnion_spec (p : List Int) (a b : Nat) (hInv : Inv p)
    (ha : a < p.length) (hb : b < p.length) :
    (ufUnion p a b).2.length = p.length ∧
    Inv (ufUnion p a b).2 ∧
    ((ufUnion p a b).1 = false ↔ (ufFind p a).1 = (ufFind p b).1) ∧
    ((ufFind p a).1 ≠ (ufFind p b).1 →
      ∃ big small,
        ((big = (ufFind p a).1 ∧ small = (ufFind p b).1) ∨
         (big = (ufFind p b).1 ∧ small = (ufFind p a).1)) ∧
        Set.ncard {i | RootedAt p i small} ≤ Set.ncard {i | RootedAt p i big} ∧
        (ufUnion p a b).2.getD small 0 = (big : Int) ∧
        (ufUnion p a b).2.getD big 0 = p.getD big 0 + p.getD small 0 ∧
        (ufUnion p a b).2.getD big 0
          = -((Set.ncard {i | RootedAt p i big}
              + Set.ncard {i | RootedAt p i small} : Nat) : Int) ∧
        (∀ i, RootedAt (ufUnion p a b).2 i big ↔
          (RootedAt p i big ∨ RootedAt p i small))) := by
  obtain ⟨ra, q1, heq1, hra, hlen1, hval1, hiff1, hriff1, hcard1, hInv1⟩ := ufFind_spec p a hInv ha
  obtain ⟨rb, q2, heq2, hrb, hlen2, hval2, hiff2, hriff2, hcard2, hInv2⟩ :=
    ufFind_spec q1 b hInv1 (by omega)
  have hrbp : RootedAt p b rb := (hriff1 b rb).mp hrb
  obtain ⟨rb', qb, heqb, hrb', _⟩ := ufFind_spec p b hInv hb
  have hrbeq : (ufFind p b).1 = rb := by
    rw [heqb]
    exact rootedAt_unique hrb' hrbp
  have hraeq : (ufFind p a).1 = ra := by rw [heq1]
  have hlen21 : q2.length = p.length := hlen2.trans hlen1
  obtain ⟨hralt, hraneg⟩ : ra < p.length ∧ p.getD ra 0 < 0 := by
    obtain ⟨k, hk⟩ := hra
    exact hk.root_prop
  obtain ⟨hrblt, hrbneg⟩ : rb < p.length ∧ p.getD rb 0 < 0 := by
    obtain ⟨k, hk⟩ := hrbp
    exact hk.root_prop
  have hq1raneg : q1.getD ra 0 < 0 := (hiff1 ra).mpr hraneg
  have hq2raneg : q2.getD ra 0 < 0 := (hiff2 ra).mpr hq1raneg
  have hq2ra : q2.getD ra 0 = p.getD ra 0 :=
    (hval2 ra hq2raneg).trans (hval1 ra hq1raneg)
  have hq1rbneg : q1.getD rb 0 < 0 := (hiff1 rb).mpr hrbneg
  have hq2rbneg : q2.getD rb 0 < 0 := (hiff2 rb).mpr hq1rbneg
  have hq2rb : q2.getD rb 0 = p.getD rb 0 :=
    (hval2 rb hq2rbneg).trans (hval1 rb hq1rbneg)
  have hcardp : ∀ r2, Set.ncard {i | RootedAt q2 i r2} = Set.ncard {i | RootedAt p i r2} :=
    fun r2 => (hcard2 r2).trans (hcard1 r2)
  have hriffp : ∀ i2 r2, RootedAt q2 i2 r2 ↔ RootedAt p i2 r2 :=
    fun i2 r2 => (hriff2 i2 r2).trans (hriff1 i2 r2)
  by_cases hcase : ra = rb
  · have hu : ufUnion p a b = (false, q2) := by
      simp only [ufUnion]
      rw [heq1]
      dsimp only
      rw [heq2]
      dsimp only
      rw [if_pos hcase]
    rw [hu, hraeq, hrbeq]
    refine ⟨hlen21, hInv2, iff_of_true rfl hcase, ?_⟩
    intro hne
    exact absurd hcase hne
  · have hstep : ∃ big small,
        ((big = ra ∧ small = rb) ∨ (big = rb ∧ small = ra)) ∧
        q2.getD big 0 ≤ q2.getD small 0 ∧
        ufUnion p a b = (true, unionResult q2 big small) := by
      by_cases hcmp : q2.getD ra 0 ≤ q2.getD rb 0
      · refine ⟨ra, rb, Or.inl ⟨rfl, rfl⟩, hcmp, ?_⟩
        simp only [ufUnion]
        rw [heq1]
        dsimp only
        rw [heq2]
        dsimp only
        rw [if_neg hcase, if_pos hcmp]
        rfl
      · refine ⟨rb, ra, Or.inr ⟨rfl, rfl⟩, le_of_lt (lt_of_not_le hcmp), ?_⟩
        simp only [ufUnion]
        rw [heq1]
        dsimp only
        rw [heq2]
        dsimp only
        rw [if_neg hcase, if_neg hcmp]
        rfl
    obtain ⟨big, small, hbsor, hble, hueq⟩ := hstep
    obtain ⟨hbiglt, hsmalllt, hbs, hnb2, hns2, hq2big, hq2small⟩ :
        big < q2.length ∧ small < q2.length ∧ big ≠ small ∧
        q2.getD big 0 < 0 ∧ q2.getD small 0 < 0 ∧
        q2.getD big 0 = p.getD big 0 ∧ q2.getD small 0 = p.getD small 0 := by
      rcases hbsor with ⟨hb1, hs1⟩ | ⟨hb1, hs1⟩ <;> rw [hb1, hs1]
      · exact ⟨by omega, by omega, hcase, hq2raneg, hq2rbneg, hq2ra, hq2rb⟩
      · exact ⟨by omega, by omega, Ne.symm hcase, hq2rbneg, hq2raneg, hq2rb, hq2ra⟩
    obtain ⟨hInv', hcardbig⟩ :=
      unionResult_Inv q2 big small hInv2 hbiglt hsmalllt hbs hnb2 hns2
    have hpbigneg : p.getD big 0 < 0 := by omega
    have hpsmallneg : p.getD small 0 < 0 := by omega
    obtain ⟨_, _, hSp, _⟩ := hInv
    have hsizes : Set.ncard {i | RootedAt p i small} ≤ Set.ncard {i | RootedAt p i big} := by
      have h1 := hSp big (by omega) hpbigneg
      have h2 := hSp small (by omega) hpsmallneg
      omega
    rw [hueq, hraeq, hrbeq]
    dsimp only
    refine ⟨by rw [unionResult_length]; omega, hInv', iff_of_false (by simp) hcase, ?_⟩
    intro hne
    refine ⟨big, small, hbsor, hsizes,
      unionResult_getD_small q2 big small hsmalllt, ?_, ?_, ?_⟩
    · rw [unionResult_getD_big q2 big small hbs hbiglt, hq2big, hq2small]
    · rw [unionResult_getD_big q2 big small hbs hbiglt, hq2big, hq2small,
        hSp big (by omega) hpbigneg, hSp small (by omega) hpsmallneg]
      push_cast
      ring
    · intro i
      rw [union_rooted_iff q2 big small hbiglt hsmalllt hbs hnb2 hns2 i big]
      constructor
      · rintro (⟨_, h | h⟩ | ⟨habs, _, _⟩)
        · exact Or.inl ((hriffp i big).mp h)
        · exact Or.inr ((hriffp i small).mp h)
        · exact absurd rfl habs
      · rintro (h | h)
        · exact Or.inl ⟨rfl, Or.inl ((hriffp i big).mpr h)⟩
        · exact Or.inl ⟨rfl, Or.inr ((hriffp i small).mpr h)⟩

theorem ufNew_length (n : Nat) : (ufNew n).length = n := by
  simp [ufNew]

theorem ufNew_getD (n i : Nat) (hi : i < n) : (ufNew n).getD i 0 = -1 := by
  simp [ufNew, List.getD, List.getElem?_replicate, hi]

theorem rootedAt_ufNew (n i r : Nat) (h : RootedAt (ufNew n) i r) : i = r ∧ i < n := by
  obtain ⟨k, hk⟩ := h
  cases hk with
  | root i h hneg =>
    refine ⟨rfl, ?_⟩
    rw [ufNew_length] at h
    exact h
  | step i r k h hpos hc =>
    rw [ufNew_length] at h
    rw [ufNew_getD n i h] at hpos
    omega

theorem rootedSet_ufNew (n r : Nat) (hr : r < n) : {i | RootedAt (ufNew n) i r} = {r} := by
  ext i
  simp only [Set.mem_setOf_eq, Set.mem_singleton_iff]
  constructor
  · intro h
    exact (rootedAt_ufNew n i r h).1
  · intro he
    rw [he]
    exact rootedAt_self (by rw [ufNew_length]; exact hr) (by rw [ufNew_getD n r hr]; omega)

/-- A fresh union-find of any capacity satisfies the invariant. -/
theorem Inv_ufNew (n : Nat) : Inv (ufNew n) := by
  have hlen := ufNew_length n
  refine ⟨?_, ?_, ?_, ?_⟩
  · intro i hi
    left
    rw [ufNew_getD n i (by omega)]
    omega
  · intro i hi
    exact ⟨i, rootedAt_self (by omega) (by rw [ufNew_getD n i (by omega)]; omega)⟩
  · intro r hr hneg
    rw [rootedSet_ufNew n r (by omega), Set.ncard_singleton, ufNew_getD n r (by omega)]
    decide
  · intro i r h
    obtain ⟨hir, hi⟩ := rootedAt_ufNew n i r h
    refine ⟨0, ?_, ?_⟩
    · rw [← hir]
      exact Chain.root i (by omega) (by rw [ufNew_getD n i hi]; omega)
    · rw [rootedSet_ufNew n r (by omega), Set.ncard_singleton]
      omega

/-- C9: for ids `a`, `b` within capacity of a union-find state satisfying the
invariant `Inv` (root entries are negative with magnitude equal to the size of
the root's set; non-root entries are valid indices into the parent array, and
parent chains terminate), `union(a, b)` returns `false` iff the roots
`find(a)` and `find(b)` computed on the prior state coincide; otherwise the
root of the smaller set is attached under the root of the larger set (the
smaller root's entry becomes the larger root's index) and the larger root's
entry absorbs the smaller root's entry — `new_root.parent += other_root.parent`,
the negation-encoded size combine, so the new entry is minus the combined set
size. Both `find` and `union` preserve `Inv`. -/
theorem claim_C9_union_find (p : List Int) (a b : Nat) (hInv : Inv p)
    (ha : a < p.length) (hb : b < p.length) :
    Inv (ufFind p a).2 ∧
    Inv (ufUnion p a b).2 ∧
    ((ufUnion p a b).1 = false ↔ (ufFind p a).1 = (ufFind p b).1) ∧
    ((ufFind p a).1 ≠ (ufFind p b).1 →
      ∃ big small,
        ((big = (ufFind p a).1 ∧ small = (ufFind p b).1) ∨
         (big = (ufFind p b).1 ∧ small = (ufFind p a).1)) ∧
        Set.ncard {i | RootedAt p i small} ≤ Set.ncard {i | RootedAt p i big} ∧
        (ufUnion p a b).2.getD small 0 = (big : Int) ∧
        (ufUnion p a b).2.getD big 0 = p.getD big 0 + p.getD small 0 ∧
        (ufUnion p a b).2.getD big 0
          = -((Set.ncard {i | RootedAt p i big}
              + Set.ncard {i | RootedAt p i small} : Nat) : Int)) := by
  obtain ⟨r, q, heq, _, _, _, _, _, _, hInvq⟩ := ufFind_spec p a hInv ha
  obtain ⟨_, hInv', hiff, hmerge⟩ := ufUnion_spec p a b hInv ha hb
  refine ⟨?_, hInv', hiff, ?_⟩
  · rw [heq]
    exact hInvq
  · intro hne
    obtain ⟨big, small, h1, h2, h3, h4, h5, _⟩ := hmerge hne
    exact ⟨big, small, h1, h2, h3, h4, h5⟩

/-- Witness for C9 at the fresh two-element union-find. -/
theorem claim_C9_union_find_witness :
    (Inv (ufNew 2) ∧ 0 < (ufNew 2).length ∧ 1 < (ufNew 2).length) ∧
    (Inv (ufFind (ufNew 2) 0).2 ∧
     Inv (ufUnion (ufNew 2) 0 1).2 ∧
     ((ufUnion (ufNew 2) 0 1).1 = false ↔ (ufFind (ufNew 2) 0).1 = (ufFind (ufNew 2) 1).1) ∧
     ((ufFind (ufNew 2) 0).1 ≠ (ufFind (ufNew 2) 1).1 →
       ∃ big small,
         ((big = (ufFind (ufNew 2) 0).1 ∧ small = (ufFind (ufNew 2) 1).1) ∨
          (big = (ufFind (ufNew 2) 1).1 ∧ small = (ufFind (ufNew 2) 0).1)) ∧
         Set.ncard {i | RootedAt (ufNew 2) i small}
           ≤ Set.ncard {i | RootedAt (ufNew 2) i big} ∧
         (ufUnion (ufNew 2) 0 1).2.getD small 0 = (big : Int) ∧
         (ufUnion (ufNew 2) 0 1).2.getD big 0
           = (ufNew 2).getD big 0 + (ufNew 2).getD small 0 ∧
         (ufUnion (ufNew 2) 0 1).2.getD big 0
           = -((Set.ncard {i | RootedAt (ufNew 2) i big}
               + Set.ncard {i | RootedAt (ufNew 2) i small} : Nat) : Int))) :=
  ⟨⟨Inv_ufNew 2, by decide, by decide⟩,
   claim_C9_union_find (ufNew 2) 0 1 (Inv_ufNew 2) (by decide) (by decide)⟩

set_option maxRecDepth 10000 in
/-- Witness for C10 at a concrete input. -/
theorem claim_C10_no_oob_witness :
    (1 ≤ twoSpecies.length ∧
     sortEdgesDesc (compute_edges (twoSpecies.map Species.genome))
       = [] ++ [(⟨0, 1, 0⟩ : Edge)]) ∧
    ((driverState twoSpecies []).uf.length = 2 * twoSpecies.length ∧
     (driverState twoSpecies []).clusters.length ≤ 2 * twoSpecies.length - 1 ∧
     (∀ s, s < twoSpecies.length →
       ((driverState twoSpecies []).get s).1 = (driverState twoSpecies []).cluster_map.getD s 0 ∧
       (driverState twoSpecies []).cluster_map.getD s 0
         < (driverState twoSpecies []).clusters.length ∧
       (driverState twoSpecies []).cluster_map.getD s 0
         < (driverState twoSpecies []).uf.length)) :=
  ⟨⟨by decide, rfl⟩, claim_C10_no_oob twoSpecies (by decide) [] [⟨0, 1, 0⟩] rfl⟩

end Dendro
